import Mathlib

/-!
Cache simulator (`csim.c`): embedding and verification.

The definitions below follow `csim.c` function by function.

* The three file-level statics `num_lines`, `set_bits`, `block_bits` are
  gathered in `Geometry` and passed explicitly.
* A recency list (`list`, a singly linked list ending in a dummy node) is
  represented by the tags of its real nodes, head first.  The `tag` field of
  the dummy node is never written by the program; the value a read of that
  field yields is an explicit argument `d` of the functions that can read it.
* Memory that `malloc` returns is not cleared: what the line arrays hold after
  `cache_init` is an explicit argument `fresh`, and whether an allocation is
  granted is an explicit argument `malloc_ok`.
* A run that leaves the allocated data (array index out of range, unlinking
  the dummy node) or ends the program has no result: the functions return
  `none` there.
-/

namespace Csim

/-- The statics `num_lines` (E), `set_bits` (s), `block_bits` (b) of `csim.c`. -/
structure Geometry where
  num_lines : Nat
  set_bits : Nat
  block_bits : Nat
deriving DecidableEq, Repr

/-- The struct `cache_line`: the `valid` flag (an `int` used as a truth value)
and the `tag`. -/
structure cache_line where
  valid : Bool
  tag : Nat
deriving DecidableEq, Repr

/-- The struct `cache_set`: the line array and the recency list
(least recently used at the head). -/
structure cache_set where
  cache_lines : List cache_line
  lru_list : List Nat
deriving DecidableEq, Repr

/-! ## Linked list -/

/-- Function `list_new`: a list of the dummy node only. -/
def list_new : List Nat := []

/-- Function `list_append`: the dummy node receives `tag`, a new dummy follows it. -/
def list_append (L : List Nat) (tag : Nat) : List Nat := L ++ [tag]

/-- Function `list_prepend`: a new node in front of the head. -/
def list_prepend (L : List Nat) (tag : Nat) : List Nat := tag :: L

/-- Function `list_delete_head`: returns the tag of the head and unlinks the
head.  On a list without real nodes the head is the dummy node itself;
unlinking it leaves `head` and `tail` dangling, which is reported as `none`. -/
def list_delete_head : List Nat → Option (Nat × List Nat)
  | [] => none
  | head_tag :: rest => some (head_tag, rest)

/-- The `for` loop of `list_delete_by_tag`, entered with `p` at a real node and
`rest` the real nodes after `p`.  When `p->next` holds `tag` it is unlinked and
`p` moves on to the node after it, which is therefore not itself compared.
When `p` is the last real node, `p->next` is the dummy node and the comparison
reads the tag field `d` of the dummy; a match unlinks and frees the dummy node
(`none`). -/
def list_delete_loop (tag d : Nat) : Nat → List Nat → Option (List Nat)
  | p, [] => if d = tag then none else some [p]
  | p, [q] => if q = tag then some [p] else (list_delete_loop tag d q []).map (p :: ·)
  | p, q :: r :: rest =>
    if q = tag then (list_delete_loop tag d r rest).map (p :: ·)
    else (list_delete_loop tag d q (r :: rest)).map (p :: ·)

/-- Function `list_delete_by_tag`: the head is compared first and unlinked on a match
(early return); otherwise the loop runs.  On a list without real nodes the
head is the dummy node: a match on its tag field `d` unlinks the dummy
(`none`), otherwise the loop body is never entered. -/
def list_delete_by_tag (L : List Nat) (tag d : Nat) : Option (List Nat) :=
  match L with
  | [] => if d = tag then none else some []
  | h :: rest => if h = tag then some rest else list_delete_loop tag d h rest

/-! ## Address parsing -/

/-- Function `get_set_index`.  The literal `0xFFFFFFFF` has type `unsigned int`, so the
shift and the complement are 32-bit operations; the mask is then widened to
`size_t`.  For `set_bits ≥ 32` the C shift is undefined; the embedding keeps
the low 32 bits of the mathematical shift. -/
def get_set_index (g : Geometry) (address : Nat) : Nat :=
  let mask := 0xFFFFFFFF - (0xFFFFFFFF <<< g.set_bits) % 2 ^ 32
  (address >>> g.block_bits) &&& mask

/-- Function `get_tag`: the address shifted right by `set_bits + block_bits` (for a
sum below 64, as the shift is on a 64-bit value). -/
def get_tag (g : Geometry) (address : Nat) : Nat :=
  address >>> (g.set_bits + g.block_bits)

/-! ## Cache utilities -/

/-- The first loop of `cache_load`: is there an `i < num_lines` with
`lines[i].valid && lines[i].tag == tag`?  The first argument counts the
iterations left, the list is the array from index `i` on; reading past the
end of the array is `none`. -/
def hit_scan (tag : Nat) : Nat → List cache_line → Option Bool
  | 0, _ => some false
  | _ + 1, [] => none
  | n + 1, l :: ls => if l.valid && l.tag == tag then some true else hit_scan tag n ls

/-- The first-fit part of the second loop of `cache_load`: the lowest-indexed
line with `!lines[i].valid` becomes valid and receives `tag`.  `some none`
means that all `num_lines` lines are valid; `none` is a read past the end of
the array. -/
def first_fit (tag : Nat) : Nat → List cache_line → Option (Option (List cache_line))
  | 0, _ => some none
  | _ + 1, [] => none
  | n + 1, l :: ls =>
    if !l.valid then some (some ({ valid := true, tag := tag } :: ls))
    else (first_fit tag n ls).map (Option.map (l :: ·))

/-- The inner `j` loop of the eviction branch: the lowest-indexed line with
`lines[j].tag == v_tag` (the valid flag is not looked at) receives `tag`.
`some none` means that no line holds `v_tag`; `none` is a read past the end of
the array. -/
def replace_victim (v_tag tag : Nat) : Nat → List cache_line → Option (Option (List cache_line))
  | 0, _ => some none
  | _ + 1, [] => none
  | n + 1, l :: ls =>
    if l.tag = v_tag then some (some ({ l with tag := tag } :: ls))
    else (replace_victim v_tag tag n ls).map (Option.map (l :: ·))

/-- Function `cache_load`.  `C` is the array of sets, `d` the value that the
tag field of the dummy node yields should `list_delete_by_tag` read it.  The
result is the returned `int` (1 hit, 0 miss, -1 eviction) and the cache
afterwards.  The last branch is the `return 0` after the loops: it is reached
with `num_lines = 0`, or when no line holds the tag taken from the list head. -/
def cache_load (g : Geometry) (C : List cache_set) (address d : Nat) :
    Option (Int × List cache_set) :=
  let set_index := get_set_index g address
  let tag := get_tag g address
  match C[set_index]? with
  | none => none
  | some S =>
    match hit_scan tag g.num_lines S.cache_lines with
    | none => none
    | some true =>
      match list_delete_by_tag S.lru_list tag d with
      | none => none
      | some L => some (1, C.set set_index { S with lru_list := list_append L tag })
    | some false =>
      match first_fit tag g.num_lines S.cache_lines with
      | none => none
      | some (some lines) =>
        some (0, C.set set_index { cache_lines := lines, lru_list := list_append S.lru_list tag })
      | some none =>
        if g.num_lines = 0 then some (0, C)
        else
          match list_delete_head S.lru_list with
          | none => none
          | some (v_tag, L) =>
            match replace_victim v_tag tag g.num_lines S.cache_lines with
            | none => none
            | some (some lines) =>
              some (-1, C.set set_index { cache_lines := lines, lru_list := list_append L tag })
            | some none => some (0, C.set set_index { S with lru_list := L })

/-- Function `cache_store`, which is `cache_load`. -/
def cache_store (g : Geometry) (C : List cache_set) (address d : Nat) :
    Option (Int × List cache_set) :=
  cache_load g C address d

/-! ## Trace processing -/

/-- The value that a C `int` (32 bits, two's complement) holds after the
arithmetic result `x` is stored in it: `x` itself from `-2 ^ 31` to
`2 ^ 31 - 1`, wrapped around outside (signed overflow is undefined in C;
compiled code wraps). -/
def int_wrap (x : Int) : Int := (x + 2 ^ 31) % 2 ^ 32 - 2 ^ 31

/-- The counters `hit_count`, `miss_count`, `eviction_count` of `main`, C
`int`s: every update of `parse_step` stores its result through `int_wrap`. -/
structure Counters where
  hit_count : Int
  miss_count : Int
  eviction_count : Int
deriving DecidableEq, Repr

/-- One line of the trace as the loop body of `parse_file` uses it: the
characters `line[0]` and `line[1]` and the address that `strtol` reads from
`line + 3`. -/
structure Record where
  lead : Char
  op : Char
  addr : Nat
deriving DecidableEq, Repr

/-- The body of the `while` loop of `parse_file` for one line: a line that
does not start with a blank is skipped, then the `switch` on `line[1]`. -/
def parse_step (g : Geometry) (cnt : Counters) (C : List cache_set) (r : Record) (d : Nat) :
    Option (Counters × List cache_set) :=
  if r.lead ≠ ' ' then some (cnt, C)
  else if r.op = 'L' ∨ r.op = 'S' then
    match cache_load g C r.addr d with
    | none => none
    | some (res, C1) =>
      if res < 0 then
        some ({ cnt with miss_count := int_wrap (cnt.miss_count + 1),
                         eviction_count := int_wrap (cnt.eviction_count + 1) }, C1)
      else if res = 0 then some ({ cnt with miss_count := int_wrap (cnt.miss_count + 1) }, C1)
      else some ({ cnt with hit_count := int_wrap (cnt.hit_count + 1) }, C1)
  else if r.op = 'M' then
    match cache_load g C r.addr d with
    | none => none
    | some (res, C1) =>
      if res > 0 then some ({ cnt with hit_count := int_wrap (cnt.hit_count + 2) }, C1)
      else if res < 0 then
        some ({ hit_count := int_wrap (cnt.hit_count + 1),
                miss_count := int_wrap (cnt.miss_count + 1),
                eviction_count := int_wrap (cnt.eviction_count + 1) }, C1)
      else some ({ cnt with hit_count := int_wrap (cnt.hit_count + 1),
                            miss_count := int_wrap (cnt.miss_count + 1) }, C1)
  else some (cnt, C)

/-- The `while` loop of `parse_file` over a list of records, each paired with
the dummy-field value of its `cache_load` call. -/
def parse_records (g : Geometry) (cnt : Counters) (C : List cache_set) :
    List (Record × Nat) → Option (Counters × List cache_set)
  | [] => some (cnt, C)
  | (r, d) :: rest =>
    match parse_step g cnt C r d with
    | none => none
    | some (cnt1, C1) => parse_records g cnt1 C1 rest

/-- Successive `cache_load` calls on a list of addresses, each paired with the
dummy-field value of its call; the results are collected in order. -/
def load_all (g : Geometry) (C : List cache_set) :
    List (Nat × Nat) → Option (List Int × List cache_set)
  | [] => some ([], C)
  | (a, d) :: rest =>
    match cache_load g C a d with
    | none => none
    | some (res, C1) =>
      match load_all g C1 rest with
      | none => none
      | some (rs, C2) => some (res :: rs, C2)

/-- A cache of `n` sets of `num_lines` lines each, every line invalid (the
tags of invalid lines are immaterial and taken as 0) and every recency list
empty. -/
def empty_cache (g : Geometry) (n : Nat) : List cache_set :=
  List.replicate n { cache_lines := List.replicate g.num_lines { valid := false, tag := 0 },
                     lru_list := list_new }

/-- The set index as the specification words it:
`(address >> blockOffsetBits) & ((1 << setIndexBits) - 1)` on 64-bit values. -/
def spec_set_index (s b a : Nat) : Nat :=
  ((a >>> b) &&& ((1 <<< s) % 2 ^ 64 - 1))

/-- The tag as the specification words it:
`address >> (setIndexBits + blockOffsetBits)`. -/
def spec_tag (s b a : Nat) : Nat := a >>> (s + b)

/-! ## Well-formed caches -/

/-- The tags of the lines with `valid = true`, in line order. -/
def valid_tags (lines : List cache_line) : List Nat :=
  (lines.filter (·.valid)).map (·.tag)

/-- A set is well formed when it has `num_lines` lines and its recency list
holds exactly the tags of its valid lines, none of them twice. -/
def wf_set (g : Geometry) (S : cache_set) : Prop :=
  S.cache_lines.length = g.num_lines ∧ S.lru_list.Nodup ∧
    S.lru_list.Perm (valid_tags S.cache_lines)

instance (g : Geometry) (S : cache_set) : Decidable (wf_set g S) := by
  unfold wf_set; infer_instance

/-- Every set of the cache is well formed. -/
def wf_cache (g : Geometry) (C : List cache_set) : Prop :=
  ∀ S ∈ C, wf_set g S

instance (g : Geometry) (C : List cache_set) : Decidable (wf_cache g C) := by
  unfold wf_cache; infer_instance

/-- The part of `cache_load` that works on the selected set, written as a
function of that set alone (a proof device; `cache_load_eq_set_load` relates it
to `cache_load`). -/
def set_load (g : Geometry) (S : cache_set) (tag d : Nat) : Option (Int × cache_set) :=
  match hit_scan tag g.num_lines S.cache_lines with
  | none => none
  | some true =>
    match list_delete_by_tag S.lru_list tag d with
    | none => none
    | some L => some (1, { S with lru_list := list_append L tag })
  | some false =>
    match first_fit tag g.num_lines S.cache_lines with
    | none => none
    | some (some lines) =>
      some (0, { cache_lines := lines, lru_list := list_append S.lru_list tag })
    | some none =>
      if g.num_lines = 0 then some (0, S)
      else
        match list_delete_head S.lru_list with
        | none => none
        | some (v_tag, L) =>
          match replace_victim v_tag tag g.num_lines S.cache_lines with
          | none => none
          | some (some lines) =>
            some (-1, { cache_lines := lines, lru_list := list_append L tag })
          | some none => some (0, { S with lru_list := L })

/-! ## Reference LRU model -/

/-- One access of the reference LRU model on one set: `l` lists the resident
tags oldest first, `E` is the capacity.  A resident tag is a hit and moves to
the end; otherwise a set with room takes the tag at the end (miss); otherwise
the first element is dropped and the tag appended (miss with eviction). -/
def lru_access (E : Nat) (l : List Nat) (tag : Nat) : Int × List Nat :=
  if tag ∈ l then (1, l.erase tag ++ [tag])
  else if l.length < E then (0, l ++ [tag])
  else (-1, l.tail ++ [tag])

/-- The reference LRU model on a sequence of addresses: the state maps a set
index to the resident tags of that set. -/
def lru_run (g : Geometry) (st : Nat → List Nat) : List Nat → List Int
  | [] => []
  | a :: rest =>
    let r := lru_access g.num_lines (st (get_set_index g a)) (get_tag g a)
    r.1 :: lru_run g (Function.update st (get_set_index g a) r.2) rest

/-- An empty cache: every set has `num_lines` lines, all invalid (their tag
fields hold anything), and an empty recency list. -/
def is_empty_cache (g : Geometry) (C : List cache_set) : Prop :=
  ∀ S ∈ C, S.cache_lines.length = g.num_lines ∧ (∀ l ∈ S.cache_lines, l.valid = false) ∧
    S.lru_list = []

instance (g : Geometry) (C : List cache_set) : Decidable (is_empty_cache g C) := by
  unfold is_empty_cache; infer_instance

/-- The cache states that arise from an empty cache by completed `cache_load`
calls. -/
inductive reachable (g : Geometry) : List cache_set → Prop
  | init (C : List cache_set) : is_empty_cache g C → reachable g C
  | step (C C1 : List cache_set) (a d : Nat) (r : Int) :
      reachable g C → cache_load g C a d = some (r, C1) → reachable g C1

/-- The recency lists of the cache are the lists of the model state. -/
def lists_agree (C : List cache_set) (st : Nat → List Nat) : Prop :=
  ∀ i S, C[i]? = some S → S.lru_list = st i

/-! ## Statements of the specification on decoding and counting -/

/-- The address put together again from its tag and set index,
`(tag << (s + b)) | (setIndex << b)` on 64-bit values. -/
def reassemble (g : Geometry) (a : Nat) : Nat :=
  ((get_tag g a <<< (g.set_bits + g.block_bits)) % 2 ^ 64) |||
    ((get_set_index g a <<< g.block_bits) % 2 ^ 64)

/-- The address with its low `b` bits set to zero. -/
def clear_offset (b a : Nat) : Nat := (a >>> b) <<< b

/-- An `L` or `S` record: a line with a blank first and `L` or `S` second. -/
def is_load_store (r : Record) : Prop := r.lead = ' ' ∧ (r.op = 'L' ∨ r.op = 'S')

instance (r : Record) : Decidable (is_load_store r) := by
  unfold is_load_store; infer_instance

/-- An `M` record: a line with a blank first and `M` second. -/
def is_modify (r : Record) : Prop := r.lead = ' ' ∧ r.op = 'M'

instance (r : Record) : Decidable (is_modify r) := by
  unfold is_modify; infer_instance

/-- Number of `L` and `S` records. -/
def num_load_store (recs : List (Record × Nat)) : Nat :=
  recs.countP (fun p => is_load_store p.1)

/-- Number of `M` records. -/
def num_modify (recs : List (Record × Nat)) : Nat :=
  recs.countP (fun p => is_modify p.1)

/-- What one record adds to `hit_count + miss_count`. -/
def accesses_of (r : Record) : Int :=
  if is_load_store r then 1 else if is_modify r then 2 else 0

/-! ## Configuration and initialisation -/

/-- The size of a `cache_set` (two pointers) on an LP64 machine. -/
def sizeof_cache_set : Nat := 16

/-- The size of a `cache_line` (an `int`, padding, a `size_t`) on an LP64
machine. -/
def sizeof_cache_line : Nat := 16

/-- The `for` loop of `cache_init`, with `n` sets still to set up, the next
one being set `i`.  `malloc_ok k m` tells whether the allocation number `k` of
`cache_init`, of `m` bytes, succeeds (the set array is number 0, the line array
of set `i` number `i + 1`); a refused allocation ends the program (`none`).
The line array is not written: `fresh i j` is what the allocated memory holds
at line `j` of set `i`.  The request is `num_lines * sizeof(cache_line)` in
64-bit arithmetic, and the array has as many lines as fit in it. -/
def init_sets (g : Geometry) (malloc_ok : Nat → Nat → Bool) (fresh : Nat → Nat → cache_line) :
    Nat → Nat → Option (List cache_set)
  | 0, _ => some []
  | n + 1, i =>
    if malloc_ok (i + 1) (g.num_lines * sizeof_cache_line % 2 ^ 64) then
      (init_sets g malloc_ok fresh n (i + 1)).map
        (fun rest =>
          { cache_lines :=
              (List.range (g.num_lines * sizeof_cache_line % 2 ^ 64 / sizeof_cache_line)).map
                (fresh i),
            lru_list := list_new } :: rest)
    else none

/-- Function `cache_init`.  The number of sets is `pow(2, set_bits)` converted
to `size_t`, which is `2 ^ set_bits` for `set_bits < 64` and undefined from 64
on (`none`).  A refused allocation ends the program with exit status 1
(`none`); a set array whose byte count does not fit in 64 bits is shorter than
the loop assumes (`none`). -/
def cache_init (g : Geometry) (malloc_ok : Nat → Nat → Bool) (fresh : Nat → Nat → cache_line) :
    Option (List cache_set) :=
  if 64 ≤ g.set_bits then none
  else if malloc_ok 0 (sizeof_cache_set * 2 ^ g.set_bits % 2 ^ 64) = false then none
  else if 2 ^ 64 ≤ sizeof_cache_set * 2 ^ g.set_bits then none
  else init_sets g malloc_ok fresh (2 ^ g.set_bits) 0

/-- The addresses `A, B, A, B, ...`, one for each dummy-field value of the
list. -/
def alternate (A B : Nat) : List Nat → List (Nat × Nat)
  | [] => []
  | d :: ds => (A, d) :: alternate B A ds

/-! ## The set-index mask and the valid tags -/

theorem mask_of_lt (s : Nat) (h : s < 32) :
    0xFFFFFFFF - (0xFFFFFFFF <<< s) % 2 ^ 32 = 2 ^ s - 1 := by
  interval_cases s <;> decide

theorem get_set_index_eq_mod (g : Geometry) (a : Nat) (h : g.set_bits < 32) :
    get_set_index g a = a / 2 ^ g.block_bits % 2 ^ g.set_bits := by
  unfold get_set_index
  simp only [mask_of_lt _ h, Nat.shiftRight_eq_div_pow, Nat.and_pow_two_sub_one_eq_mod]

@[simp] theorem valid_tags_nil : valid_tags [] = [] := rfl

theorem valid_tags_cons (l : cache_line) (ls : List cache_line) :
    valid_tags (l :: ls) = if l.valid then l.tag :: valid_tags ls else valid_tags ls := by
  unfold valid_tags
  by_cases h : l.valid <;> simp [h]

theorem valid_tags_append (xs ys : List cache_line) :
    valid_tags (xs ++ ys) = valid_tags xs ++ valid_tags ys := by
  simp [valid_tags]

theorem mem_valid_tags {t : Nat} {lines : List cache_line} :
    t ∈ valid_tags lines ↔ ∃ l ∈ lines, l.valid = true ∧ l.tag = t := by
  simp [valid_tags, and_assoc]

theorem hit_scan_length (tag : Nat) (lines : List cache_line) :
    hit_scan tag lines.length lines = some (decide (tag ∈ valid_tags lines)) := by
  induction lines with
  | nil => simp [hit_scan]
  | cons l ls ih =>
    simp only [List.length_cons, hit_scan, valid_tags_cons]
    by_cases hv : l.valid = true
    · by_cases ht : l.tag = tag
      · simp [hv, ht]
      · have ht2 : ¬ tag = l.tag := fun h => ht h.symm
        simp [hv, ht, ht2, ih]
    · simp [hv, ih]

/-! ## The linked-list operations on duplicate-free lists -/

theorem list_delete_loop_cases (tag d p : Nat) (rest : List Nat) (hnd : rest.Nodup) :
    list_delete_loop tag d p rest = some (p :: rest.erase tag) ∨
      (list_delete_loop tag d p rest = none ∧ d = tag) := by
  induction p, rest using list_delete_loop.induct tag d with
  | case1 p h => right; simp [list_delete_loop, h]
  | case2 p h => left; simp [list_delete_loop, h]
  | case3 p => left; simp [list_delete_loop]
  | case4 p q hq ih =>
    rcases ih List.nodup_nil with h | ⟨h, hd⟩
    · left; rw [list_delete_loop, if_neg hq, h]; simp [List.erase_cons_tail, hq]
    · right; refine ⟨?_, hd⟩; rw [list_delete_loop, if_neg hq, h]; rfl
  | case5 p r rest ih =>
    have hnd2 : (r :: rest).Nodup := (List.nodup_cons.mp hnd).2
    have hnot : tag ∉ r :: rest := (List.nodup_cons.mp hnd).1
    have hnot2 : tag ∉ rest := fun h => hnot (List.mem_cons_of_mem _ h)
    rcases ih (List.nodup_cons.mp hnd2).2 with h | ⟨h, hd⟩
    · left
      rw [list_delete_loop, if_pos rfl, h]
      simp [List.erase_of_not_mem hnot2]
    · right; refine ⟨?_, hd⟩; rw [list_delete_loop, if_pos rfl, h]; rfl
  | case6 p q r rest hq ih =>
    have hnd2 : (r :: rest).Nodup := (List.nodup_cons.mp hnd).2
    rcases ih hnd2 with h | ⟨h, hd⟩
    · left
      rw [list_delete_loop, if_neg hq, h]
      simp [List.erase_cons_tail, hq]
    · right; refine ⟨?_, hd⟩; rw [list_delete_loop, if_neg hq, h]; rfl

theorem list_delete_loop_last (tag d p : Nat) (rest : List Nat) (hnd : rest.Nodup)
    (hlast : rest.getLast? = some tag) :
    list_delete_loop tag d p rest = some (p :: rest.dropLast) := by
  induction p, rest using list_delete_loop.induct tag d with
  | case1 p h => simp at hlast
  | case2 p h => simp at hlast
  | case3 p => simp [list_delete_loop]
  | case4 p q hq ih => simp at hlast; exact absurd hlast hq
  | case5 p r rest ih =>
    have hnot : tag ∉ r :: rest := (List.nodup_cons.mp hnd).1
    have hl : (r :: rest).getLast? = some tag := by
      simpa [List.getLast?_cons_cons] using hlast
    exact absurd (List.mem_of_getLast?_eq_some hl) hnot
  | case6 p q r rest hq ih =>
    have hnd2 : (r :: rest).Nodup := (List.nodup_cons.mp hnd).2
    have hl : (r :: rest).getLast? = some tag := by
      simpa [List.getLast?_cons_cons] using hlast
    simp [list_delete_loop, hq, ih hnd2 hl]

theorem list_delete_by_tag_cases (L : List Nat) (tag d : Nat) (hnd : L.Nodup) :
    list_delete_by_tag L tag d = some (L.erase tag) ∨
      (list_delete_by_tag L tag d = none ∧ d = tag) := by
  cases L with
  | nil =>
    by_cases h : d = tag
    · right; simp [list_delete_by_tag, h]
    · left; simp [list_delete_by_tag, h]
  | cons h rest =>
    by_cases hh : h = tag
    · left; simp [list_delete_by_tag, hh]
    · rcases list_delete_loop_cases tag d h rest (List.nodup_cons.mp hnd).2 with h1 | ⟨h1, hd⟩
      · left; simp [list_delete_by_tag, hh, h1, List.erase_cons_tail]
      · right; refine ⟨?_, hd⟩; simp only [list_delete_by_tag, if_neg hh, h1]

theorem list_delete_by_tag_last (init : List Nat) (tag d : Nat)
    (hnd : (init ++ [tag]).Nodup) :
    list_delete_by_tag (init ++ [tag]) tag d = some init := by
  cases init with
  | nil => simp [list_delete_by_tag]
  | cons h rest =>
    have hh : h ≠ tag := by
      intro e
      have := (List.nodup_cons.mp hnd).1
      simp [e] at this
    have hnd2 : (rest ++ [tag]).Nodup := (List.nodup_cons.mp hnd).2
    have := list_delete_loop_last tag d h (rest ++ [tag]) hnd2 (by simp)
    simp [list_delete_by_tag, hh, this]

/-! ## The line scans on an array of exactly `num_lines` lines -/

theorem first_fit_all_valid (tag : Nat) (lines : List cache_line)
    (h : ∀ l ∈ lines, l.valid = true) :
    first_fit tag lines.length lines = some none := by
  induction lines with
  | nil => simp [first_fit]
  | cons l ls ih =>
    have hl : l.valid = true := h l (List.mem_cons_self _ _)
    have hls : ∀ x ∈ ls, x.valid = true := fun x hx => h x (List.mem_cons_of_mem _ hx)
    simp [first_fit, hl, ih hls]

theorem first_fit_invalid (tag : Nat) (lines : List cache_line)
    (h : ∃ l ∈ lines, l.valid = false) :
    ∃ pre l post, lines = pre ++ l :: post ∧ (∀ x ∈ pre, x.valid = true) ∧ l.valid = false ∧
      first_fit tag lines.length lines
        = some (some (pre ++ { valid := true, tag := tag } :: post)) := by
  induction lines with
  | nil => simp at h
  | cons l ls ih =>
    by_cases hl : l.valid = true
    · have h2 : ∃ x ∈ ls, x.valid = false := by
        obtain ⟨x, hx, hxv⟩ := h
        rcases List.mem_cons.mp hx with e | hx2
        · subst e; simp [hl] at hxv
        · exact ⟨x, hx2, hxv⟩
      obtain ⟨pre, m, post, e, hpre, hm, hff⟩ := ih h2
      refine ⟨l :: pre, m, post, by simp [e], ?_, hm, ?_⟩
      · intro x hx
        rcases List.mem_cons.mp hx with e2 | hx2
        · exact e2 ▸ hl
        · exact hpre x hx2
      · simp [first_fit, hl, hff]
    · have hl2 : l.valid = false := by simpa using hl
      exact ⟨[], l, ls, rfl, by simp, hl2, by simp [first_fit, hl2]⟩

theorem replace_victim_mem (v_tag tag : Nat) (lines : List cache_line)
    (h : ∃ l ∈ lines, l.tag = v_tag) :
    ∃ pre l post, lines = pre ++ l :: post ∧ (∀ x ∈ pre, x.tag ≠ v_tag) ∧ l.tag = v_tag ∧
      replace_victim v_tag tag lines.length lines
        = some (some (pre ++ { l with tag := tag } :: post)) := by
  induction lines with
  | nil => simp at h
  | cons l ls ih =>
    by_cases hl : l.tag = v_tag
    · exact ⟨[], l, ls, rfl, by simp, hl, by simp [replace_victim, hl]⟩
    · have h2 : ∃ x ∈ ls, x.tag = v_tag := by
        obtain ⟨x, hx, hxv⟩ := h
        rcases List.mem_cons.mp hx with e | hx2
        · subst e; exact absurd hxv hl
        · exact ⟨x, hx2, hxv⟩
      obtain ⟨pre, m, post, e, hpre, hm, hff⟩ := ih h2
      refine ⟨l :: pre, m, post, by simp [e], ?_, hm, ?_⟩
      · intro x hx
        rcases List.mem_cons.mp hx with e2 | hx2
        · exact e2 ▸ hl
        · exact hpre x hx2
      · simp [replace_victim, hl, hff]

theorem cache_load_eq_set_load (g : Geometry) (C : List cache_set) (address d : Nat) :
    cache_load g C address d =
      match C[get_set_index g address]? with
      | none => none
      | some S =>
        (set_load g S (get_tag g address) d).map
          (fun p => (p.1, C.set (get_set_index g address) p.2)) := by
  dsimp only [cache_load]
  cases hS : C[get_set_index g address]? with
  | none => rfl
  | some S =>
    have hself : C.set (get_set_index g address) S = C := by
      apply List.ext_getElem?
      intro i
      by_cases hi : get_set_index g address = i
      · subst hi
        rw [List.getElem?_set_self, hS]
        exact (List.getElem?_eq_some.mp hS).1
      · rw [List.getElem?_set_ne hi]
    dsimp only [set_load]
    cases h1 : hit_scan (get_tag g address) g.num_lines S.cache_lines with
    | none => rfl
    | some hit =>
      cases hit with
      | true =>
        dsimp only
        cases h2 : list_delete_by_tag S.lru_list (get_tag g address) d <;> rfl
      | false =>
        dsimp only
        cases h3 : first_fit (get_tag g address) g.num_lines S.cache_lines with
        | none => rfl
        | some fit =>
          cases fit with
          | some lines => rfl
          | none =>
            dsimp only
            by_cases hE : g.num_lines = 0
            · simp [hE, hself]
            · simp only [if_neg hE]
              cases h4 : list_delete_head S.lru_list with
              | none => rfl
              | some vl =>
                obtain ⟨v_tag, L⟩ := vl
                dsimp only
                cases h5 : replace_victim v_tag (get_tag g address) g.num_lines S.cache_lines with
                | none => rfl
                | some rep => cases rep <;> rfl

/-! ## The three branches of `cache_load` on a well-formed set -/

theorem hit_scan_wf (g : Geometry) (S : cache_set) (tag : Nat) (hwf : wf_set g S) :
    hit_scan tag g.num_lines S.cache_lines = some (decide (tag ∈ S.lru_list)) := by
  obtain ⟨hlen, _, hperm⟩ := hwf
  rw [← hlen, hit_scan_length]
  simp [hperm.mem_iff]

theorem set_load_hit (g : Geometry) (S : cache_set) (tag d : Nat) (hwf : wf_set g S)
    (hmem : tag ∈ S.lru_list) :
    set_load g S tag d =
      (list_delete_by_tag S.lru_list tag d).map
        (fun L => ((1 : Int), { S with lru_list := L ++ [tag] })) := by
  unfold set_load
  rw [hit_scan_wf g S tag hwf]
  simp only [hmem, decide_True]
  cases list_delete_by_tag S.lru_list tag d <;> rfl

theorem set_load_miss (g : Geometry) (S : cache_set) (tag d : Nat) (hwf : wf_set g S)
    (hnot : tag ∉ S.lru_list) (hinv : ∃ l ∈ S.cache_lines, l.valid = false) :
    ∃ pre l post, S.cache_lines = pre ++ l :: post ∧ (∀ x ∈ pre, x.valid = true) ∧
      l.valid = false ∧
      set_load g S tag d =
        some (0, { cache_lines := pre ++ { valid := true, tag := tag } :: post,
                   lru_list := S.lru_list ++ [tag] }) := by
  obtain ⟨pre, l, post, e, hpre, hl, hff⟩ := first_fit_invalid tag S.cache_lines hinv
  refine ⟨pre, l, post, e, hpre, hl, ?_⟩
  unfold set_load
  rw [hit_scan_wf g S tag hwf]
  simp only [hnot, decide_False]
  rw [← hwf.1, hff]
  rfl

theorem set_load_evict (g : Geometry) (S : cache_set) (tag d : Nat) (hwf : wf_set g S)
    (hnot : tag ∉ S.lru_list) (hall : ∀ l ∈ S.cache_lines, l.valid = true)
    (hE : 1 ≤ g.num_lines) :
    ∃ v L pre l post, S.lru_list = v :: L ∧ S.cache_lines = pre ++ l :: post ∧
      (∀ x ∈ pre, x.tag ≠ v) ∧ l.tag = v ∧
      set_load g S tag d =
        some (-1, { cache_lines := pre ++ { l with tag := tag } :: post,
                    lru_list := L ++ [tag] }) := by
  have hlen := hwf.1
  have hperm := hwf.2.2
  have hne : S.cache_lines ≠ [] := by
    intro h
    rw [h] at hlen
    simp at hlen
    omega
  have hvt : valid_tags S.cache_lines ≠ [] := by
    obtain ⟨x, hx⟩ := List.exists_mem_of_ne_nil _ hne
    intro h
    have : x.tag ∈ valid_tags S.cache_lines := mem_valid_tags.mpr ⟨x, hx, hall x hx, rfl⟩
    rw [h] at this
    simp at this
  cases hL : S.lru_list with
  | nil =>
    rw [hL] at hperm
    exact absurd (List.Perm.nil_eq hperm).symm hvt
  | cons v L =>
    have hv : v ∈ valid_tags S.cache_lines := by
      apply hperm.mem_iff.mp
      rw [hL]
      exact List.mem_cons_self _ _
    obtain ⟨x, hx, _, hxt⟩ := mem_valid_tags.mp hv
    obtain ⟨pre, l, post, e, hpre, hl, hrv⟩ := replace_victim_mem v tag S.cache_lines ⟨x, hx, hxt⟩
    refine ⟨v, L, pre, l, post, rfl, e, hpre, hl, ?_⟩
    unfold set_load
    rw [hit_scan_wf g S tag hwf]
    simp only [hnot, decide_False]
    have hE0 : g.num_lines ≠ 0 := by omega
    rw [← hlen, first_fit_all_valid tag S.cache_lines hall]
    rw [hlen]
    simp only [if_neg hE0, hL, list_delete_head]
    rw [← hlen, hrv]
    rfl

theorem valid_tags_length_le (lines : List cache_line) :
    (valid_tags lines).length ≤ lines.length := by
  unfold valid_tags
  rw [List.length_map]
  exact List.length_filter_le _ _

theorem valid_tags_length_lt (lines : List cache_line)
    (h : ∃ l ∈ lines, l.valid = false) : (valid_tags lines).length < lines.length := by
  induction lines with
  | nil => simp at h
  | cons l ls ih =>
    rw [valid_tags_cons]
    by_cases hl : l.valid = true
    · have h2 : ∃ x ∈ ls, x.valid = false := by
        obtain ⟨x, hx, hxv⟩ := h
        rcases List.mem_cons.mp hx with e | hx2
        · subst e; simp [hl] at hxv
        · exact ⟨x, hx2, hxv⟩
      simp only [hl, if_true, List.length_cons]
      exact Nat.succ_lt_succ (ih h2)
    · simp only [hl, List.length_cons]
      exact Nat.lt_succ_of_le (valid_tags_length_le ls)

theorem valid_tags_all_valid (lines : List cache_line) (h : ∀ l ∈ lines, l.valid = true) :
    valid_tags lines = lines.map (·.tag) := by
  unfold valid_tags
  rw [List.filter_eq_self.mpr h]

theorem all_valid_or_invalid (lines : List cache_line) :
    (∀ l ∈ lines, l.valid = true) ∨ ∃ l ∈ lines, l.valid = false := by
  by_cases h : ∀ l ∈ lines, l.valid = true
  · exact Or.inl h
  · right
    push_neg at h
    obtain ⟨l, hl, hv⟩ := h
    exact ⟨l, hl, by simpa using hv⟩

/-- On a well-formed set the recency list is shorter than `num_lines` exactly
when some line is invalid. -/
theorem wf_set_length_lt_iff (g : Geometry) (S : cache_set) (hwf : wf_set g S) :
    S.lru_list.length < g.num_lines ↔ ∃ l ∈ S.cache_lines, l.valid = false := by
  obtain ⟨hlen, _, hperm⟩ := hwf
  rw [hperm.length_eq, ← hlen]
  constructor
  · intro h
    rcases all_valid_or_invalid S.cache_lines with hall | hinv
    · rw [valid_tags_all_valid _ hall, List.length_map] at h
      omega
    · exact hinv
  · exact valid_tags_length_lt _

/-- A completed `cache_load` on a well-formed set leaves it well formed and
acts on the recency list as the reference LRU model does. -/
theorem set_load_sound (g : Geometry) (S S1 : cache_set) (tag d : Nat) (r : Int)
    (hwf : wf_set g S) (hE : 1 ≤ g.num_lines) (h : set_load g S tag d = some (r, S1)) :
    wf_set g S1 ∧ (r, S1.lru_list) = lru_access g.num_lines S.lru_list tag := by
  have hlt := wf_set_length_lt_iff g S hwf
  obtain ⟨hlen, hnd, hperm⟩ := hwf
  by_cases hmem : tag ∈ S.lru_list
  · rw [set_load_hit g S tag d ⟨hlen, hnd, hperm⟩ hmem] at h
    rcases list_delete_by_tag_cases S.lru_list tag d hnd with h1 | ⟨h1, _⟩
    · rw [h1] at h
      simp only [Option.map_some', Option.some.injEq, Prod.mk.injEq] at h
      obtain ⟨hr, hS⟩ := h
      subst hr; subst hS
      refine ⟨⟨hlen, ?_, ?_⟩, by rw [lru_access, if_pos hmem]⟩
      · show (S.lru_list.erase tag ++ [tag]).Nodup
        rw [List.nodup_append]
        refine ⟨hnd.erase tag, List.nodup_singleton _, ?_⟩
        intro x hx hx2
        rw [List.mem_singleton] at hx2
        subst hx2
        exact (List.Nodup.not_mem_erase hnd) hx
      · show (S.lru_list.erase tag ++ [tag]).Perm (valid_tags S.cache_lines)
        refine List.Perm.trans ?_ hperm
        refine List.Perm.trans List.perm_append_comm ?_
        exact (List.perm_cons_erase hmem).symm
    · rw [h1] at h; simp at h
  · rcases all_valid_or_invalid S.cache_lines with hall | hinv
    · obtain ⟨v, L, pre, l, post, hL, hlines, hpre, hl, hsl⟩ :=
        set_load_evict g S tag d ⟨hlen, hnd, hperm⟩ hmem hall hE
      rw [hsl] at h
      simp only [Option.some.injEq, Prod.mk.injEq] at h
      obtain ⟨hr, hS⟩ := h
      subst hr; subst hS
      have hnlt : ¬ S.lru_list.length < g.num_lines := by
        rw [hlt]
        push_neg
        intro x hx
        simp [hall x hx]
      have hlv : l.valid = true := hall l (by rw [hlines]; simp)
      have hpv : ∀ x ∈ pre, x.valid = true := fun x hx => hall x (by rw [hlines]; simp [hx])
      have hqv : ∀ x ∈ post, x.valid = true := fun x hx => hall x (by rw [hlines]; simp [hx])
      have hnotL : tag ∉ L := fun hx => hmem (by rw [hL]; exact List.mem_cons_of_mem _ hx)
      rw [hL] at hnd hperm
      refine ⟨⟨?_, ?_, ?_⟩, by rw [lru_access, if_neg hmem, if_neg hnlt, hL]; rfl⟩
      · show (pre ++ { l with tag := tag } :: post).length = g.num_lines
        rw [← hlen, hlines]; simp
      · show (L ++ [tag]).Nodup
        rw [List.nodup_append]
        refine ⟨(List.nodup_cons.mp hnd).2, List.nodup_singleton _, ?_⟩
        intro x hx hx2
        rw [List.mem_singleton] at hx2
        subst hx2
        exact hnotL hx
      · show (L ++ [tag]).Perm (valid_tags (pre ++ { l with tag := tag } :: post))
        rw [hlines, valid_tags_append, valid_tags_cons] at hperm
        rw [valid_tags_append, valid_tags_cons]
        simp only [hlv, if_true] at hperm ⊢
        rw [hl] at hperm
        have h1 : (v :: L).Perm (v :: (valid_tags pre ++ valid_tags post)) :=
          hperm.trans List.perm_middle
        have h2 : L.Perm (valid_tags pre ++ valid_tags post) := List.Perm.cons_inv h1
        refine List.Perm.trans List.perm_append_comm ?_
        exact (List.Perm.cons tag h2).trans List.perm_middle.symm
    · obtain ⟨pre, l, post, hlines, hpre, hl, hsl⟩ :=
        set_load_miss g S tag d ⟨hlen, hnd, hperm⟩ hmem hinv
      rw [hsl] at h
      simp only [Option.some.injEq, Prod.mk.injEq] at h
      obtain ⟨hr, hS⟩ := h
      subst hr; subst hS
      have hlt2 : S.lru_list.length < g.num_lines := hlt.mpr hinv
      refine ⟨⟨?_, ?_, ?_⟩, by rw [lru_access, if_neg hmem, if_pos hlt2]⟩
      · show (pre ++ { valid := true, tag := tag } :: post).length = g.num_lines
        rw [← hlen, hlines]; simp
      · show (S.lru_list ++ [tag]).Nodup
        rw [List.nodup_append]
        refine ⟨hnd, List.nodup_singleton _, ?_⟩
        intro x hx hx2
        rw [List.mem_singleton] at hx2
        subst hx2
        exact hmem hx
      · show (S.lru_list ++ [tag]).Perm
          (valid_tags (pre ++ { valid := true, tag := tag } :: post))
        rw [hlines, valid_tags_append, valid_tags_cons] at hperm
        rw [valid_tags_append, valid_tags_cons]
        simp only [hl, if_true] at hperm ⊢
        simp only [Bool.false_eq_true, if_false] at hperm
        refine List.Perm.trans List.perm_append_comm ?_
        exact (List.Perm.cons tag hperm).trans List.perm_middle.symm

/-! ## From one set to the whole cache -/

theorem cache_load_some (g : Geometry) (C C1 : List cache_set) (a d : Nat) (r : Int)
    (h : cache_load g C a d = some (r, C1)) :
    ∃ S S1, C[get_set_index g a]? = some S ∧ set_load g S (get_tag g a) d = some (r, S1) ∧
      C1 = C.set (get_set_index g a) S1 := by
  rw [cache_load_eq_set_load] at h
  cases hS : C[get_set_index g a]? with
  | none => rw [hS] at h; simp at h
  | some S =>
    simp only [hS] at h
    cases hsl : set_load g S (get_tag g a) d with
    | none => rw [hsl] at h; simp at h
    | some p =>
      rw [hsl] at h
      simp only [Option.map_some', Option.some.injEq, Prod.mk.injEq] at h
      exact ⟨S, p.2, rfl, by rw [← h.1, hsl], h.2.symm⟩

theorem cache_load_of_set_load (g : Geometry) (C : List cache_set) (S S1 : cache_set)
    (a d : Nat) (r : Int) (hS : C[get_set_index g a]? = some S)
    (h : set_load g S (get_tag g a) d = some (r, S1)) :
    cache_load g C a d = some (r, C.set (get_set_index g a) S1) := by
  rw [cache_load_eq_set_load, hS]
  simp [h]

theorem wf_cache_set (g : Geometry) (C : List cache_set) (i : Nat) (S : cache_set)
    (hwf : wf_cache g C) (hS : wf_set g S) : wf_cache g (C.set i S) := by
  intro T hT
  rcases List.mem_or_eq_of_mem_set hT with h | h
  · exact hwf T h
  · exact h ▸ hS

theorem wf_cache_getElem (g : Geometry) (C : List cache_set) (i : Nat) (S : cache_set)
    (hwf : wf_cache g C) (hS : C[i]? = some S) : wf_set g S := by
  obtain ⟨hi, e⟩ := List.getElem?_eq_some.mp hS
  exact hwf S (e ▸ List.getElem_mem hi)

theorem cache_load_wf (g : Geometry) (C C1 : List cache_set) (a d : Nat) (r : Int)
    (hE : 1 ≤ g.num_lines) (hwf : wf_cache g C) (h : cache_load g C a d = some (r, C1)) :
    wf_cache g C1 := by
  obtain ⟨S, S1, hS, hsl, rfl⟩ := cache_load_some g C C1 a d r h
  exact wf_cache_set g C _ S1 hwf
    (set_load_sound g S S1 _ d r (wf_cache_getElem g C _ S hwf hS) hE hsl).1

theorem wf_of_is_empty_cache (g : Geometry) (C : List cache_set) (h : is_empty_cache g C) :
    wf_cache g C := by
  intro S hS
  obtain ⟨hlen, hinv, hl⟩ := h S hS
  refine ⟨hlen, by rw [hl]; exact List.nodup_nil, ?_⟩
  have : valid_tags S.cache_lines = [] := by
    unfold valid_tags
    rw [List.filter_eq_nil_iff.mpr (fun l hl2 => by simp [hinv l hl2])]
    rfl
  rw [hl, this]

theorem is_empty_cache_empty_cache (g : Geometry) (n : Nat) :
    is_empty_cache g (empty_cache g n) := by
  intro S hS
  rw [empty_cache, List.mem_replicate] at hS
  obtain ⟨_, rfl⟩ := hS
  refine ⟨by simp, ?_, rfl⟩
  intro l hl
  rw [List.mem_replicate] at hl
  rw [hl.2]

theorem wf_of_reachable (g : Geometry) (C : List cache_set) (hE : 1 ≤ g.num_lines)
    (h : reachable g C) : wf_cache g C := by
  induction h with
  | init C h0 => exact wf_of_is_empty_cache g C h0
  | step C C1 a d r _ hstep ih => exact cache_load_wf g C C1 a d r hE ih hstep

/-! ## The LRU behaviour of `cache_load` -/

theorem lru_access_snd (E : Nat) (l : List Nat) (tag : Nat) :
    ∃ init, (lru_access E l tag).2 = init ++ [tag] := by
  unfold lru_access
  by_cases h1 : tag ∈ l
  · exact ⟨l.erase tag, by rw [if_pos h1]⟩
  · by_cases h2 : l.length < E
    · exact ⟨l, by rw [if_neg h1, if_pos h2]⟩
    · exact ⟨l.tail, by rw [if_neg h1, if_neg h2]⟩

/-- A second access to the tag that was accessed last is a hit that changes
nothing, whatever the tag field of the dummy node holds. -/
theorem set_load_again (g : Geometry) (S : cache_set) (init : List Nat) (tag d : Nat)
    (hwf : wf_set g S) (hl : S.lru_list = init ++ [tag]) :
    set_load g S tag d = some (1, S) := by
  have hmem : tag ∈ S.lru_list := by rw [hl]; simp
  rw [set_load_hit g S tag d hwf hmem, hl,
    list_delete_by_tag_last init tag d (hl ▸ hwf.2.1)]
  simp only [Option.map_some', ← hl]

theorem cache_load_twice (g : Geometry) (C C1 : List cache_set) (a d d2 : Nat) (r : Int)
    (hE : 1 ≤ g.num_lines) (hwf : wf_cache g C) (h : cache_load g C a d = some (r, C1)) :
    cache_load g C1 a d2 = some (1, C1) := by
  obtain ⟨S, S1, hS, hsl, rfl⟩ := cache_load_some g C C1 a d r h
  have hsound := set_load_sound g S S1 _ d r (wf_cache_getElem g C _ S hwf hS) hE hsl
  obtain ⟨init, hinit⟩ := lru_access_snd g.num_lines S.lru_list (get_tag g a)
  have hl : S1.lru_list = init ++ [get_tag g a] := by
    rw [← hinit, ← hsound.2]
  have hi : get_set_index g a < C.length := (List.getElem?_eq_some.mp hS).1
  have hS1 : (C.set (get_set_index g a) S1)[get_set_index g a]? = some S1 := by
    rw [List.getElem?_set_self hi]
  rw [cache_load_of_set_load g _ S1 S1 a d2 1 hS1
    (set_load_again g S1 init _ d2 hsound.1 hl)]
  simp

/-- The set invariant for calls that return.  The predicate "every set has
`num_lines` lines and its recency list holds exactly the tags of its valid
lines, none twice" holds for a cache with all lines invalid and all recency
lists empty, and every `cache_load` call with `num_lines ≥ 1` that returns
preserves it, for every address and every content of the dummy node. -/
theorem wf_cache_invariant (g : Geometry) (C : List cache_set) (hE : 1 ≤ g.num_lines) :
    (is_empty_cache g C → wf_cache g C) ∧
      (wf_cache g C → ∀ (a d : Nat) (r : Int) (C1 : List cache_set),
        cache_load g C a d = some (r, C1) → wf_cache g C1) :=
  ⟨wf_of_is_empty_cache g C, fun hwf a d r C1 h => cache_load_wf g C C1 a d r hE hwf h⟩

/-- C8 (repeated access hits).  On a well-formed cache with `num_lines ≥ 1`,
when `cache_load` on `a` has returned (whatever it returned), `cache_load` on
`a` again returns 1, whatever the tag field of the dummy node holds. -/
theorem cache_load_repeat_hits (g : Geometry) (C C1 : List cache_set) (a d d2 : Nat)
    (r : Int) (hE : 1 ≤ g.num_lines) (hwf : wf_cache g C)
    (h : cache_load g C a d = some (r, C1)) :
    ∃ C2, cache_load g C1 a d2 = some (1, C2) :=
  ⟨C1, cache_load_twice g C C1 a d d2 r hE hwf h⟩

/-- C7 (modify equals load then store).  In a cache state reachable from an
empty cache with `num_lines ≥ 1`, the `M` branch of `parse_file` gives the
same counters and the same cache as the `L` branch followed by the `S` branch
on the same address (and fails exactly when the `L` branch fails). -/
theorem modify_eq_load_then_store (g : Geometry) (C : List cache_set) (cnt : Counters)
    (a d d2 : Nat) (hE : 1 ≤ g.num_lines) (hreach : reachable g C) :
    parse_step g cnt C ⟨' ', 'M', a⟩ d =
      (parse_step g cnt C ⟨' ', 'L', a⟩ d).bind
        (fun p => parse_step g p.1 p.2 ⟨' ', 'S', a⟩ d2) := by
  have hwf := wf_of_reachable g C hE hreach
  have hM : parse_step g cnt C ⟨' ', 'M', a⟩ d =
      match cache_load g C a d with
      | none => none
      | some (res, C1) =>
        if res > 0 then some ({ cnt with hit_count := int_wrap (cnt.hit_count + 2) }, C1)
        else if res < 0 then
          some ({ hit_count := int_wrap (cnt.hit_count + 1),
                  miss_count := int_wrap (cnt.miss_count + 1),
                  eviction_count := int_wrap (cnt.eviction_count + 1) }, C1)
        else some ({ cnt with hit_count := int_wrap (cnt.hit_count + 1),
                              miss_count := int_wrap (cnt.miss_count + 1) }, C1) := by
    simp [parse_step]
  have hL : ∀ (c : Counters) (D : List cache_set) (x : Nat) (o : Char), o = 'L' ∨ o = 'S' →
      parse_step g c D ⟨' ', o, a⟩ x =
      match cache_load g D a x with
      | none => none
      | some (res, C1) =>
        if res < 0 then
          some ({ c with miss_count := int_wrap (c.miss_count + 1),
                         eviction_count := int_wrap (c.eviction_count + 1) }, C1)
        else if res = 0 then some ({ c with miss_count := int_wrap (c.miss_count + 1) }, C1)
        else some ({ c with hit_count := int_wrap (c.hit_count + 1) }, C1) := by
    intro c D x o ho
    simp [parse_step, ho]
  rw [hM, hL cnt C d 'L' (Or.inl rfl)]
  cases hc : cache_load g C a d with
  | none => rfl
  | some p =>
    obtain ⟨res, C1⟩ := p
    have h2 := cache_load_twice g C C1 a d d2 res hE hwf hc
    rcases lt_trichotomy res 0 with hneg | hzero | hpos
    · have h1 : ¬ res > 0 := by omega
      simp only [h1, hneg, if_true, if_false, Option.some_bind]
      rw [hL _ _ _ 'S' (Or.inr rfl), h2]
      simp
    · subst hzero
      simp only [gt_iff_lt, lt_self_iff_false, if_false, if_true, Option.some_bind]
      rw [hL _ _ _ 'S' (Or.inr rfl), h2]
      simp
    · have h1 : ¬ res < 0 := by omega
      have h3 : ¬ res = 0 := by omega
      simp only [gt_iff_lt, hpos, h1, h3, if_true, if_false, Option.some_bind]
      rw [hL _ _ _ 'S' (Or.inr rfl), h2]
      simp only [one_ne_zero, if_false, Option.some.injEq, Prod.mk.injEq, and_true,
        show ¬ (1 : Int) < 0 by decide]
      congr 1
      unfold int_wrap
      omega

/-- C4 (eviction effect).  On a well-formed cache with `num_lines ≥ 1`, when
`cache_load` returns -1 the target set had its recency list `v :: L` and its
lines `pre ++ l :: post` with `l` the one line holding the victim tag `v`
(valid, and no line of `pre` or `post` holds `v`); afterwards `l` holds
`get_tag a` and is still valid, `pre` and `post` are unchanged, and the recency
list is `L ++ [get_tag a]`. -/
theorem cache_load_eviction_effect (g : Geometry) (C C1 : List cache_set) (a d : Nat)
    (hE : 1 ≤ g.num_lines) (hwf : wf_cache g C)
    (h : cache_load g C a d = some (-1, C1)) :
    ∃ S v L pre l post,
      C[get_set_index g a]? = some S ∧ S.lru_list = v :: L ∧
      S.cache_lines = pre ++ l :: post ∧ l.valid = true ∧ l.tag = v ∧
      (∀ x ∈ pre, x.tag ≠ v) ∧ (∀ x ∈ post, x.tag ≠ v) ∧
      C1 = C.set (get_set_index g a)
        { cache_lines := pre ++ { valid := true, tag := get_tag g a } :: post,
          lru_list := L ++ [get_tag g a] } := by
  obtain ⟨S, S1, hS, hsl, rfl⟩ := cache_load_some g C C1 a d (-1) h
  have hwfS := wf_cache_getElem g C _ S hwf hS
  have hsound := (set_load_sound g S S1 _ d (-1) hwfS hE hsl).2
  have hmem : get_tag g a ∉ S.lru_list := by
    intro hm
    rw [lru_access, if_pos hm] at hsound
    simp at hsound
  have hall : ∀ x ∈ S.cache_lines, x.valid = true := by
    rcases all_valid_or_invalid S.cache_lines with hall | hinv
    · exact hall
    · have hlt := (wf_set_length_lt_iff g S hwfS).mpr hinv
      rw [lru_access, if_neg hmem, if_pos hlt] at hsound
      simp at hsound
  obtain ⟨v, L, pre, l, post, hL, hlines, hpre, hl, hev⟩ :=
    set_load_evict g S (get_tag g a) d hwfS hmem hall hE
  have hlv : l.valid = true := hall l (by rw [hlines]; simp)
  have hnd : (valid_tags S.cache_lines).Nodup := hwfS.2.2.nodup_iff.mp hwfS.2.1
  have hpost : ∀ x ∈ post, x.tag ≠ v := by
    intro x hx hxv
    rw [valid_tags_all_valid _ hall, hlines, List.map_append, List.map_cons,
      List.nodup_append] at hnd
    have h1 := (List.nodup_cons.mp hnd.2.1).1
    apply h1
    rw [hl, ← hxv]
    exact List.mem_map_of_mem _ hx
  rw [hev] at hsl
  simp only [Option.some.injEq, Prod.mk.injEq, true_and] at hsl
  refine ⟨S, v, L, pre, l, post, hS, hL, hlines, hlv, hl, hpre, hpost, ?_⟩
  rw [← hsl]
  have : ({ l with tag := get_tag g a } : cache_line) = { valid := true, tag := get_tag g a } := by
    rw [← hlv]
  rw [this]

/-! ## Completion and classification of `cache_load` -/

/-- On a well-formed set with `num_lines ≥ 1`, `cache_load` completes whenever
the tag field of the dummy node differs from the tag looked up. -/
theorem set_load_returns (g : Geometry) (S : cache_set) (tag d : Nat) (hwf : wf_set g S)
    (hE : 1 ≤ g.num_lines) (hd : d ≠ tag) : ∃ p, set_load g S tag d = some p := by
  by_cases hmem : tag ∈ S.lru_list
  · rw [set_load_hit g S tag d hwf hmem]
    rcases list_delete_by_tag_cases S.lru_list tag d hwf.2.1 with h1 | ⟨_, h2⟩
    · rw [h1]; exact ⟨_, rfl⟩
    · exact absurd h2 hd
  · rcases all_valid_or_invalid S.cache_lines with hall | hinv
    · obtain ⟨v, L, pre, l, post, _, _, _, _, hsl⟩ := set_load_evict g S tag d hwf hmem hall hE
      exact ⟨_, hsl⟩
    · obtain ⟨pre, l, post, _, _, _, hsl⟩ := set_load_miss g S tag d hwf hmem hinv
      exact ⟨_, hsl⟩

theorem cache_load_returns (g : Geometry) (C : List cache_set) (a d : Nat)
    (hwf : wf_cache g C) (hE : 1 ≤ g.num_lines) (hi : get_set_index g a < C.length)
    (hd : d ≠ get_tag g a) : ∃ r C1, cache_load g C a d = some (r, C1) := by
  have hS : C[get_set_index g a]? = some C[get_set_index g a] := List.getElem?_eq_getElem hi
  obtain ⟨p, hp⟩ := set_load_returns g _ (get_tag g a) d (wf_cache_getElem g C _ _ hwf hS) hE hd
  exact ⟨p.1, _, cache_load_of_set_load g C _ p.2 a d p.1 hS hp⟩

/-- The return value of a completed `cache_load` on a well-formed cache
classifies the access: 1 when a valid line of the set holds the tag, 0 when
none does and some line is invalid, -1 when none does and all lines are
valid. -/
theorem cache_load_classify (g : Geometry) (C C1 : List cache_set) (S : cache_set)
    (a d : Nat) (r : Int) (hwf : wf_cache g C) (hE : 1 ≤ g.num_lines)
    (hS : C[get_set_index g a]? = some S) (h : cache_load g C a d = some (r, C1)) :
    (r = 1 ↔ ∃ l ∈ S.cache_lines, l.valid = true ∧ l.tag = get_tag g a) ∧
    (r = 0 ↔ (¬ ∃ l ∈ S.cache_lines, l.valid = true ∧ l.tag = get_tag g a) ∧
      ∃ l ∈ S.cache_lines, l.valid = false) ∧
    (r = -1 ↔ (¬ ∃ l ∈ S.cache_lines, l.valid = true ∧ l.tag = get_tag g a) ∧
      ∀ l ∈ S.cache_lines, l.valid = true) := by
  obtain ⟨T, S1, hT, hsl, _⟩ := cache_load_some g C C1 a d r h
  rw [hS] at hT
  obtain rfl : S = T := Option.some.inj hT
  have hwfS := wf_cache_getElem g C _ S hwf hS
  have hsound := (set_load_sound g S S1 _ d r hwfS hE hsl).2
  have hres : (∃ l ∈ S.cache_lines, l.valid = true ∧ l.tag = get_tag g a) ↔
      get_tag g a ∈ S.lru_list := by
    rw [hwfS.2.2.mem_iff, mem_valid_tags]
  have hlt := wf_set_length_lt_iff g S hwfS
  have hall : (∀ l ∈ S.cache_lines, l.valid = true) ↔ ¬ S.lru_list.length < g.num_lines := by
    rw [hlt]
    push_neg
    exact ⟨fun h x hx => by simp [h x hx], fun h x hx => by simpa using h x hx⟩
  rw [hres, hall, ← hlt]
  unfold lru_access at hsound
  by_cases hmem : get_tag g a ∈ S.lru_list
  · rw [if_pos hmem] at hsound
    have hr : r = 1 := (Prod.mk.inj hsound).1
    subst hr
    simp [hmem]
  · by_cases hl : S.lru_list.length < g.num_lines
    · rw [if_neg hmem, if_pos hl] at hsound
      have hr : r = 0 := (Prod.mk.inj hsound).1
      subst hr
      simp [hmem, hl]
    · rw [if_neg hmem, if_neg hl] at hsound
      have hr : r = -1 := (Prod.mk.inj hsound).1
      subst hr
      simp [hmem, hl]

/-! ## Refinement of the reference LRU model -/

theorem lists_agree_step (g : Geometry) (C C1 : List cache_set) (st : Nat → List Nat)
    (a d : Nat) (r : Int) (hwf : wf_cache g C) (hE : 1 ≤ g.num_lines)
    (hag : lists_agree C st) (h : cache_load g C a d = some (r, C1)) :
    r = (lru_access g.num_lines (st (get_set_index g a)) (get_tag g a)).1 ∧
      lists_agree C1 (Function.update st (get_set_index g a)
        (lru_access g.num_lines (st (get_set_index g a)) (get_tag g a)).2) := by
  obtain ⟨S, S1, hS, hsl, rfl⟩ := cache_load_some g C C1 a d r h
  have hsound := (set_load_sound g S S1 _ d r (wf_cache_getElem g C _ S hwf hS) hE hsl).2
  rw [hag _ S hS] at hsound
  have hi : get_set_index g a < C.length := (List.getElem?_eq_some.mp hS).1
  refine ⟨(Prod.mk.inj hsound).1, ?_⟩
  intro i T hT
  by_cases hie : i = get_set_index g a
  · subst hie
    rw [List.getElem?_set_self hi] at hT
    obtain rfl : S1 = T := Option.some.inj hT
    rw [Function.update_same]
    exact (Prod.mk.inj hsound).2
  · rw [List.getElem?_set_ne (Ne.symm hie)] at hT
    rw [Function.update_noteq hie]
    exact hag i T hT

/-- Every completed run of `cache_load` calls from a well-formed cache returns
the results of the reference LRU model. -/
theorem load_all_refines (g : Geometry) (hE : 1 ≤ g.num_lines) (ads : List (Nat × Nat)) :
    ∀ (C C1 : List cache_set) (st : Nat → List Nat) (rs : List Int),
      wf_cache g C → lists_agree C st → load_all g C ads = some (rs, C1) →
      rs = lru_run g st (ads.map Prod.fst) := by
  induction ads with
  | nil =>
    intro C C1 st rs _ _ h
    simp only [load_all, Option.some.injEq, Prod.mk.injEq] at h
    rw [← h.1]; rfl
  | cons ad rest ih =>
    intro C C1 st rs hwf hag h
    obtain ⟨a, d⟩ := ad
    simp only [load_all] at h
    cases hc : cache_load g C a d with
    | none => rw [hc] at h; simp at h
    | some p =>
      obtain ⟨r, C2⟩ := p
      rw [hc] at h
      simp only at h
      cases hr : load_all g C2 rest with
      | none => rw [hr] at h; simp at h
      | some q =>
        obtain ⟨rs2, C3⟩ := q
        rw [hr] at h
        simp only [Option.some.injEq, Prod.mk.injEq] at h
        obtain ⟨hr1, hag2⟩ := lists_agree_step g C C2 st a d r hwf hE hag hc
        have := ih C2 C3 _ rs2 (cache_load_wf g C C2 a d r hE hwf hc) hag2 hr
        rw [← h.1, this, hr1]
        rfl

/-- From an empty cache: every completed run returns the results of the
reference LRU model started with all sets empty. -/
theorem load_all_refines_empty (g : Geometry) (hE : 1 ≤ g.num_lines) (ads : List (Nat × Nat))
    (C C1 : List cache_set) (rs : List Int) (h0 : is_empty_cache g C)
    (h : load_all g C ads = some (rs, C1)) :
    rs = lru_run g (fun _ => []) (ads.map Prod.fst) := by
  refine load_all_refines g hE ads C C1 _ rs (wf_of_is_empty_cache g C h0) ?_ h
  intro i S hS
  obtain ⟨hi, e⟩ := List.getElem?_eq_some.mp hS
  exact (h0 S (e ▸ List.getElem_mem hi)).2.2

/-- When no dummy-field value equals the tag of its access and every set index
lies inside the cache, the run completes (with the results of the reference
LRU model, by `load_all_refines`). -/
theorem load_all_returns (g : Geometry) (hE : 1 ≤ g.num_lines) (ads : List (Nat × Nat)) :
    ∀ (C : List cache_set), wf_cache g C →
      (∀ ad ∈ ads, get_set_index g ad.1 < C.length ∧ ad.2 ≠ get_tag g ad.1) →
      ∃ rs C1, load_all g C ads = some (rs, C1) := by
  induction ads with
  | nil => intro C _ _; exact ⟨[], C, rfl⟩
  | cons ad rest ih =>
    intro C hwf hok
    obtain ⟨a, d⟩ := ad
    have h0 := hok (a, d) (List.mem_cons_self _ _)
    obtain ⟨r, C1, hc⟩ := cache_load_returns g C a d hwf hE h0.1 h0.2
    obtain ⟨S, S1, _, _, hC1⟩ := cache_load_some g C C1 a d r hc
    have hlen : C1.length = C.length := by rw [hC1, List.length_set]
    obtain ⟨rs, C2, hr⟩ := ih C1 (cache_load_wf g C C1 a d r hE hwf hc)
      (fun ad had => hlen ▸ hok ad (List.mem_cons_of_mem _ had))
    exact ⟨r :: rs, C2, by simp [load_all, hc, hr]⟩

/-! ## Address decoding -/

theorem spec_set_index_eq_mod (s b a : Nat) (hs : s < 64) :
    spec_set_index s b a = a / 2 ^ b % 2 ^ s := by
  unfold spec_set_index
  have h1 : 1 <<< s = 2 ^ s := by simp [Nat.shiftLeft_eq]
  have h2 : 2 ^ s < 2 ^ 64 := Nat.pow_lt_pow_right (by decide) hs
  rw [h1, Nat.mod_eq_of_lt h2, Nat.shiftRight_eq_div_pow, Nat.and_pow_two_sub_one_eq_mod]

/-- For `set_bits < 32` the decoder computes what the specification states. -/
theorem decode_eq_spec_of_lt (g : Geometry) (a : Nat) (hs : g.set_bits < 32) :
    get_set_index g a = spec_set_index g.set_bits g.block_bits a ∧
      get_tag g a = spec_tag g.set_bits g.block_bits a := by
  refine ⟨?_, rfl⟩
  rw [get_set_index_eq_mod g a hs, spec_set_index_eq_mod _ _ _ (by omega)]

/-- For `set_bits < 32` tag and set index put together give back the 64-bit
address without its block offset. -/
theorem reassemble_of_lt (g : Geometry) (a : Nat) (ha : a < 2 ^ 64) (hs : g.set_bits < 32) :
    reassemble g a = clear_offset g.block_bits a := by
  unfold reassemble clear_offset
  rw [get_set_index_eq_mod g a hs]
  unfold get_tag
  simp only [Nat.shiftRight_eq_div_pow, Nat.shiftLeft_eq]
  have hb : 0 < 2 ^ g.block_bits := Nat.pow_pos (by decide)
  have hsp : 0 < 2 ^ g.set_bits := Nat.pow_pos (by decide)
  have hdiv : a / 2 ^ (g.set_bits + g.block_bits) = a / 2 ^ g.block_bits / 2 ^ g.set_bits := by
    rw [Nat.add_comm, Nat.pow_add, Nat.div_div_eq_div_mul]
  have hle : a / 2 ^ g.block_bits * 2 ^ g.block_bits ≤ a := Nat.div_mul_le_self _ _
  have hsplit : a / 2 ^ g.block_bits / 2 ^ g.set_bits * 2 ^ (g.set_bits + g.block_bits) +
      a / 2 ^ g.block_bits % 2 ^ g.set_bits * 2 ^ g.block_bits =
      a / 2 ^ g.block_bits * 2 ^ g.block_bits := by
    have := Nat.div_add_mod (a / 2 ^ g.block_bits) (2 ^ g.set_bits)
    calc a / 2 ^ g.block_bits / 2 ^ g.set_bits * 2 ^ (g.set_bits + g.block_bits) +
          a / 2 ^ g.block_bits % 2 ^ g.set_bits * 2 ^ g.block_bits
        = (2 ^ g.set_bits * (a / 2 ^ g.block_bits / 2 ^ g.set_bits) +
            a / 2 ^ g.block_bits % 2 ^ g.set_bits) * 2 ^ g.block_bits := by
          rw [Nat.pow_add]; ring
      _ = a / 2 ^ g.block_bits * 2 ^ g.block_bits := by rw [this]
  have h1 : a / 2 ^ g.block_bits / 2 ^ g.set_bits * 2 ^ (g.set_bits + g.block_bits) < 2 ^ 64 := by
    have : a / 2 ^ g.block_bits / 2 ^ g.set_bits * 2 ^ (g.set_bits + g.block_bits) ≤
        a / 2 ^ g.block_bits * 2 ^ g.block_bits := by rw [← hsplit]; exact Nat.le_add_right _ _
    omega
  have h2 : a / 2 ^ g.block_bits % 2 ^ g.set_bits * 2 ^ g.block_bits < 2 ^ 64 := by
    have : a / 2 ^ g.block_bits % 2 ^ g.set_bits * 2 ^ g.block_bits ≤
        a / 2 ^ g.block_bits * 2 ^ g.block_bits := by rw [← hsplit]; exact Nat.le_add_left _ _
    omega
  have h3 : a / 2 ^ g.block_bits % 2 ^ g.set_bits * 2 ^ g.block_bits <
      2 ^ (g.set_bits + g.block_bits) := by
    rw [Nat.pow_add]
    exact Nat.mul_lt_mul_of_pos_right (Nat.mod_lt _ hsp) hb
  rw [hdiv, Nat.mod_eq_of_lt h1, Nat.mod_eq_of_lt h2, ← hsplit]
  have := Nat.mul_add_lt_is_or h3 (a / 2 ^ g.block_bits / 2 ^ g.set_bits)
  rw [Nat.mul_comm] at this
  exact this.symm

/-- C5 (address decoding), evaluated where it fails: with `set_bits = 33` and
`block_bits = 0` (so `s + b < 64`) and the 64-bit address `2 ^ 32`,
`get_set_index` returns 0 while `(a >> b) & ((1 << s) - 1)` is `2 ^ 32`;
`get_tag` is `a >> (s + b)` there as everywhere. -/
theorem get_set_index_wide_set_bits :
    (33 + 0 < 64) ∧ (2 ^ 32 < 2 ^ 64) ∧
      get_set_index ⟨1, 33, 0⟩ (2 ^ 32) = 0 ∧ spec_set_index 33 0 (2 ^ 32) = 2 ^ 32 ∧
      get_tag ⟨1, 33, 0⟩ (2 ^ 32) = spec_tag 33 0 (2 ^ 32) := by
  decide

/-- C6 (decode round trip), evaluated where it fails: with `set_bits = 33`,
`block_bits = 0` and the address `2 ^ 32`, tag and set index put together give
0, while the address with its low 0 bits cleared is `2 ^ 32`. -/
theorem reassemble_wide_set_bits :
    (33 + 0 < 64) ∧ (2 ^ 32 < 2 ^ 64) ∧
      reassemble ⟨1, 33, 0⟩ (2 ^ 32) = 0 ∧ clear_offset 0 (2 ^ 32) = 2 ^ 32 := by
  decide

/-! ## Counters of `parse_file` -/

theorem accesses_sum (recs : List (Record × Nat)) :
    (recs.map (fun p => accesses_of p.1)).sum =
      (num_load_store recs : Int) + 2 * (num_modify recs : Int) := by
  induction recs with
  | nil => simp [num_load_store, num_modify]
  | cons p rest ih =>
    rw [List.map_cons, List.sum_cons, ih]
    simp only [num_load_store, num_modify, List.countP_cons, accesses_of]
    by_cases hLS : is_load_store p.1
    · have hM : ¬ is_modify p.1 := by
        intro hm
        rcases hLS.2 with h | h <;> (rw [hm.2] at h; exact absurd h (by decide))
      simp [hLS, hM]
      ring
    · by_cases hM : is_modify p.1
      · simp [hLS, hM]
        ring
      · simp [hLS, hM]

/-- One record, with counters that are non-negative, have no more evictions
than misses and leave room for the accesses of the record below `2 ^ 31`:
`hit_count + miss_count` grows by the accesses of the record, no counter
decreases, and the evictions stay at most the misses. -/
theorem parse_step_counters (g : Geometry) (cnt cnt1 : Counters) (C C1 : List cache_set)
    (r : Record) (d : Nat) (h : parse_step g cnt C r d = some (cnt1, C1))
    (hh : 0 ≤ cnt.hit_count) (hm : 0 ≤ cnt.miss_count) (he : 0 ≤ cnt.eviction_count)
    (hem : cnt.eviction_count ≤ cnt.miss_count)
    (hb : cnt.hit_count + cnt.miss_count + accesses_of r < 2 ^ 31) :
    cnt1.hit_count + cnt1.miss_count = cnt.hit_count + cnt.miss_count + accesses_of r ∧
      cnt.hit_count ≤ cnt1.hit_count ∧ cnt.miss_count ≤ cnt1.miss_count ∧
      cnt.eviction_count ≤ cnt1.eviction_count ∧
      cnt1.eviction_count ≤ cnt1.miss_count := by
  unfold parse_step at h
  unfold accesses_of is_load_store is_modify at hb ⊢
  by_cases hlead : r.lead = ' '
  swap
  · rw [if_pos hlead] at h
    simp only [Option.some.injEq, Prod.mk.injEq] at h
    obtain ⟨h1, _⟩ := h
    subst h1
    simp [hlead, hem]
  rw [if_neg (not_not.mpr hlead)] at h
  simp only [hlead, true_and] at hb ⊢
  by_cases hLS : r.op = 'L' ∨ r.op = 'S'
  · rw [if_pos hLS] at h hb
    rw [if_pos hLS]
    cases hc : cache_load g C r.addr d with
    | none => rw [hc] at h; simp at h
    | some p =>
      obtain ⟨res, C2⟩ := p
      rw [hc] at h
      simp only at h
      split_ifs at h <;>
        (simp only [Option.some.injEq, Prod.mk.injEq] at h
         obtain ⟨h1, _⟩ := h
         subst h1
         simp only [int_wrap]
         omega)
  · rw [if_neg hLS] at h hb
    rw [if_neg hLS]
    by_cases hM : r.op = 'M'
    · rw [if_pos hM] at h hb
      rw [if_pos hM]
      cases hc : cache_load g C r.addr d with
      | none => rw [hc] at h; simp at h
      | some p =>
        obtain ⟨res, C2⟩ := p
        rw [hc] at h
        simp only at h
        split_ifs at h <;>
          (simp only [Option.some.injEq, Prod.mk.injEq] at h
           obtain ⟨h1, _⟩ := h
           subst h1
           simp only [int_wrap]
           omega)
    · rw [if_neg hM] at h
      rw [if_neg hM]
      simp only [Option.some.injEq, Prod.mk.injEq] at h
      obtain ⟨h1, _⟩ := h
      subst h1
      omega

theorem parse_records_counters (g : Geometry) (recs : List (Record × Nat)) :
    ∀ (cnt cnt1 : Counters) (C C1 : List cache_set),
      parse_records g cnt C recs = some (cnt1, C1) →
      0 ≤ cnt.hit_count → 0 ≤ cnt.miss_count → 0 ≤ cnt.eviction_count →
      cnt.eviction_count ≤ cnt.miss_count →
      cnt.hit_count + cnt.miss_count + (recs.map (fun p => accesses_of p.1)).sum < 2 ^ 31 →
      cnt1.hit_count + cnt1.miss_count =
        cnt.hit_count + cnt.miss_count + (recs.map (fun p => accesses_of p.1)).sum ∧
      cnt.hit_count ≤ cnt1.hit_count ∧ cnt.miss_count ≤ cnt1.miss_count ∧
      cnt.eviction_count ≤ cnt1.eviction_count ∧
      cnt1.eviction_count ≤ cnt1.miss_count := by
  induction recs with
  | nil =>
    intro cnt cnt1 C C1 h _ _ _ hem _
    simp only [parse_records, Option.some.injEq, Prod.mk.injEq] at h
    obtain ⟨h1, _⟩ := h
    subst h1
    simp [hem]
  | cons p rest ih =>
    intro cnt cnt1 C C1 h hh hm he hem hb
    obtain ⟨r, d⟩ := p
    simp only [parse_records] at h
    simp only [List.map_cons, List.sum_cons] at hb ⊢
    have hrest : 0 ≤ (rest.map (fun p => accesses_of p.1)).sum := by
      rw [accesses_sum]; omega
    have hr0 : 0 ≤ accesses_of r := by
      unfold accesses_of; split_ifs <;> decide
    cases hs : parse_step g cnt C r d with
    | none => rw [hs] at h; simp at h
    | some q =>
      obtain ⟨cnt2, C2⟩ := q
      rw [hs] at h
      simp only at h
      have h1 := parse_step_counters g cnt cnt2 C C2 r d hs hh hm he hem (by omega)
      have h2 := ih cnt2 cnt1 C2 C1 h (by omega) (by omega) (by omega) h1.2.2.2.2 (by omega)
      refine ⟨?_, ?_, ?_, ?_, h2.2.2.2.2⟩ <;> omega

theorem parse_records_cons (g : Geometry) (cnt cnt1 : Counters) (C C1 : List cache_set)
    (r : Record) (d : Nat) (rest : List (Record × Nat))
    (h : parse_step g cnt C r d = some (cnt1, C1)) :
    parse_records g cnt C ((r, d) :: rest) = parse_records g cnt1 C1 rest := by
  simp only [parse_records, h]

theorem parse_step_cache (g : Geometry) (cnt cnt1 : Counters) (C C1 : List cache_set)
    (r : Record) (d : Nat) (h : parse_step g cnt C r d = some (cnt1, C1)) :
    C1 = C ∨ ∃ res, cache_load g C r.addr d = some (res, C1) := by
  unfold parse_step at h
  split_ifs at h
  · left; exact (Prod.mk.inj (Option.some.inj h)).2.symm
  · right
    cases hc : cache_load g C r.addr d with
    | none => rw [hc] at h; simp at h
    | some p =>
      obtain ⟨res, C2⟩ := p
      rw [hc] at h
      simp only at h
      refine ⟨res, ?_⟩
      split_ifs at h <;>
        (simp only [Option.some.injEq, Prod.mk.injEq] at h
         rw [h.2])
  · right
    cases hc : cache_load g C r.addr d with
    | none => rw [hc] at h; simp at h
    | some p =>
      obtain ⟨res, C2⟩ := p
      rw [hc] at h
      simp only at h
      refine ⟨res, ?_⟩
      split_ifs at h <;>
        (simp only [Option.some.injEq, Prod.mk.injEq] at h
         rw [h.2])
  · left; exact (Prod.mk.inj (Option.some.inj h)).2.symm

theorem parse_step_returns (g : Geometry) (cnt : Counters) (C : List cache_set) (r : Record)
    (d : Nat) (hc : ∃ res C1, cache_load g C r.addr d = some (res, C1)) :
    ∃ cnt1 C1, parse_step g cnt C r d = some (cnt1, C1) := by
  obtain ⟨res, C1, hc⟩ := hc
  unfold parse_step
  rw [hc]
  simp only
  split_ifs <;> exact ⟨_, _, rfl⟩

/-- The loop of `parse_file` completes on a well-formed cache when every set
index lies inside the cache and no dummy-field value equals the tag of its
access. -/
theorem parse_records_returns (g : Geometry) (hE : 1 ≤ g.num_lines)
    (recs : List (Record × Nat)) :
    ∀ (cnt : Counters) (C : List cache_set), wf_cache g C →
      (∀ p ∈ recs, get_set_index g p.1.addr < C.length ∧ p.2 ≠ get_tag g p.1.addr) →
      ∃ cnt1 C1, parse_records g cnt C recs = some (cnt1, C1) := by
  induction recs with
  | nil => intro cnt C _ _; exact ⟨cnt, C, rfl⟩
  | cons p rest ih =>
    intro cnt C hwf hok
    obtain ⟨r, d⟩ := p
    have h0 := hok (r, d) (List.mem_cons_self _ _)
    obtain ⟨cnt1, C1, hs⟩ := parse_step_returns g cnt C r d
      (cache_load_returns g C r.addr d hwf hE h0.1 h0.2)
    have hC1 : wf_cache g C1 ∧ C1.length = C.length := by
      rcases parse_step_cache g cnt cnt1 C C1 r d hs with e | ⟨res, hc⟩
      · rw [e]; exact ⟨hwf, rfl⟩
      · obtain ⟨S, S1, _, _, e⟩ := cache_load_some g C C1 r.addr d res hc
        exact ⟨cache_load_wf g C C1 r.addr d res hE hwf hc, by rw [e, List.length_set]⟩
    obtain ⟨cnt2, C2, hr⟩ := ih cnt1 C1 hC1.1
      (fun q hq => hC1.2 ▸ hok q (List.mem_cons_of_mem _ hq))
    exact ⟨cnt2, C2, by simp [parse_records, hs, hr]⟩

theorem other_records_skipped (g : Geometry) (cnt : Counters) (D : List cache_set)
    (r : Record) (d : Nat) (hLS : ¬ is_load_store r) (hM : ¬ is_modify r) :
    parse_step g cnt D r d = some (cnt, D) := by
  unfold is_load_store at hLS
  unfold is_modify at hM
  unfold parse_step
  by_cases hlead : r.lead = ' '
  · rw [if_neg (not_not.mpr hlead), if_neg (fun h => hLS ⟨hlead, h⟩),
      if_neg (fun h => hM ⟨hlead, h⟩)]
  · rw [if_pos hlead]

/-- C9 (access accounting), as the code has it.  When the records `recs`, with
fewer than `2 ^ 31` accesses among them (the `L` and `S` records plus twice the
`M` records), have been processed from counters 0, 0, 0 on any cache,
`hit_count + miss_count` is the number of `L` and `S` records plus twice the
number of `M` records; a record of any other kind leaves all counters (and the
cache) as they are. -/
theorem access_accounting (g : Geometry) (C C1 : List cache_set) (recs : List (Record × Nat))
    (cnt1 : Counters) (h : parse_records g ⟨0, 0, 0⟩ C recs = some (cnt1, C1))
    (hb : (num_load_store recs : Int) + 2 * (num_modify recs : Int) < 2 ^ 31) :
    cnt1.hit_count + cnt1.miss_count =
        (num_load_store recs : Int) + 2 * (num_modify recs : Int) ∧
      ∀ (cnt : Counters) (D : List cache_set) (r : Record) (d : Nat),
        ¬ is_load_store r → ¬ is_modify r → parse_step g cnt D r d = some (cnt, D) := by
  constructor
  · have := (parse_records_counters g recs ⟨0, 0, 0⟩ cnt1 C C1 h (le_refl _) (le_refl _)
      (le_refl _) (le_refl _) (by rw [accesses_sum]; simpa using hb)).1
    rw [this, accesses_sum]
    simp
  · intro cnt D r d hLS hM
    exact other_records_skipped g cnt D r d hLS hM

/-- C10 (evictions bounded by misses), as the code has it.  When a sequence of
records has been processed from counters 0, 0, 0 and one more record is
processed, with fewer than `2 ^ 31` accesses among all of them, then after
that record `eviction_count ≤ miss_count` holds and no counter is smaller than
before the record.  (Every record of a trace is the one that follows some
processed sequence.) -/
theorem evictions_le_misses (g : Geometry) (C C0 C1 : List cache_set)
    (recs : List (Record × Nat)) (r : Record) (d : Nat) (cnt0 cnt1 : Counters)
    (h0 : parse_records g ⟨0, 0, 0⟩ C recs = some (cnt0, C0))
    (h1 : parse_step g cnt0 C0 r d = some (cnt1, C1))
    (hb : (num_load_store recs : Int) + 2 * (num_modify recs : Int) + accesses_of r
      < 2 ^ 31) :
    cnt1.eviction_count ≤ cnt1.miss_count ∧ cnt0.hit_count ≤ cnt1.hit_count ∧
      cnt0.miss_count ≤ cnt1.miss_count ∧ cnt0.eviction_count ≤ cnt1.eviction_count := by
  have hr0 : 0 ≤ accesses_of r := by
    unfold accesses_of; split_ifs <;> decide
  have ha := parse_records_counters g recs ⟨0, 0, 0⟩ cnt0 C C0 h0 (le_refl _) (le_refl _)
    (le_refl _) (le_refl _) (by rw [accesses_sum]; simp only [zero_add]; omega)
  rw [accesses_sum] at ha
  simp only [zero_add] at ha
  have hb2 := parse_step_counters g cnt0 cnt1 C0 C1 r d h1 ha.2.1 ha.2.2.1 ha.2.2.2.1
    ha.2.2.2.2 (by omega)
  exact ⟨hb2.2.2.2.2, hb2.2.1, hb2.2.2.1, hb2.2.2.2.1⟩

/-! ## The dummy node in `list_delete_by_tag` -/

/-- C1 (LRU refinement), evaluated where it fails: with `num_lines = 3`, one
set, and the accesses 1, 0, 2, 0 from the empty cache, the fourth access finds
tag 0 in the middle of the recency list `[1, 0, 2]`; after unlinking it the
loop of `list_delete_by_tag` goes on to the last node and compares the tag
field of the dummy node.  When that field holds 0 the dummy node is unlinked and the
run has no result, while the reference LRU model answers Miss, Miss, Miss,
Hit.  With another value in the field the run gives these four results. -/
theorem load_all_dummy_field_match :
    is_empty_cache ⟨3, 0, 0⟩ (empty_cache ⟨3, 0, 0⟩ 1) ∧
      load_all ⟨3, 0, 0⟩ (empty_cache ⟨3, 0, 0⟩ 1) [(1, 0), (0, 0), (2, 0), (0, 0)] = none ∧
      lru_run ⟨3, 0, 0⟩ (fun _ => []) [1, 0, 2, 0] = [0, 0, 0, 1] ∧
      (load_all ⟨3, 0, 0⟩ (empty_cache ⟨3, 0, 0⟩ 1) [(1, 0), (0, 0), (2, 0), (0, 7)]).map
        Prod.fst = some [0, 0, 0, 1] := by
  decide

/-- C2 (outcome classification), evaluated where it fails: the cache reached
by the accesses 1, 0, 2 with `num_lines = 3` is well formed and line 1 is
valid with tag 0, yet `cache_load` on address 0 does not return 1 when the
tag field of the dummy node holds 0: it has no result. -/
theorem cache_load_resident_no_result :
    load_all ⟨3, 0, 0⟩ (empty_cache ⟨3, 0, 0⟩ 1) [(1, 0), (0, 0), (2, 0)] =
        some ([0, 0, 0], [⟨[⟨true, 1⟩, ⟨true, 0⟩, ⟨true, 2⟩], [1, 0, 2]⟩]) ∧
      wf_cache ⟨3, 0, 0⟩ [⟨[⟨true, 1⟩, ⟨true, 0⟩, ⟨true, 2⟩], [1, 0, 2]⟩] ∧
      (∃ l ∈ [(⟨true, 1⟩ : cache_line), ⟨true, 0⟩, ⟨true, 2⟩],
        l.valid = true ∧ l.tag = get_tag ⟨3, 0, 0⟩ 0) ∧
      cache_load ⟨3, 0, 0⟩ [⟨[⟨true, 1⟩, ⟨true, 0⟩, ⟨true, 2⟩], [1, 0, 2]⟩] 0 0 = none := by
  decide

/-! ## Frame properties of `cache_load` -/

/-- C17 (set isolation).  For every cache, every address `a` and every set
index `j` other than `get_set_index a`, a `cache_load` on `a` that returns
leaves set `j` (its lines and its recency list) as it was. -/
theorem cache_load_other_sets (g : Geometry) (C C1 : List cache_set) (a d j : Nat) (r : Int)
    (hj : j ≠ get_set_index g a) (h : cache_load g C a d = some (r, C1)) :
    C1[j]? = C[j]? := by
  obtain ⟨S, S1, _, _, rfl⟩ := cache_load_some g C C1 a d r h
  exact List.getElem?_set_ne (Ne.symm hj)

/-- C18 (hit effect).  On a well-formed cache with `num_lines ≥ 1`, when
`cache_load` returns 1 the tag was in the recency list of the target set, the
lines of that set are unchanged, and the new recency list is the old one
without the tag (the other tags in their old order) followed by the tag. -/
theorem cache_load_hit_effect (g : Geometry) (C C1 : List cache_set) (a d : Nat)
    (hE : 1 ≤ g.num_lines) (hwf : wf_cache g C) (h : cache_load g C a d = some (1, C1)) :
    ∃ S, C[get_set_index g a]? = some S ∧ get_tag g a ∈ S.lru_list ∧
      C1 = C.set (get_set_index g a)
        { cache_lines := S.cache_lines,
          lru_list := S.lru_list.filter (fun t => t ≠ get_tag g a) ++ [get_tag g a] } := by
  obtain ⟨S, S1, hS, hsl, rfl⟩ := cache_load_some g C C1 a d 1 h
  have hwfS := wf_cache_getElem g C _ S hwf hS
  have hsound := (set_load_sound g S S1 _ d 1 hwfS hE hsl).2
  have hmem : get_tag g a ∈ S.lru_list := by
    by_contra hm
    unfold lru_access at hsound
    rw [if_neg hm] at hsound
    split_ifs at hsound <;> simp at hsound
  refine ⟨S, hS, hmem, ?_⟩
  rw [set_load_hit g S _ d hwfS hmem] at hsl
  rcases list_delete_by_tag_cases S.lru_list (get_tag g a) d hwfS.2.1 with h1 | ⟨h1, _⟩
  · rw [h1] at hsl
    simp only [Option.map_some', Option.some.injEq, Prod.mk.injEq, true_and] at hsl
    rw [← hsl, List.Nodup.erase_eq_filter hwfS.2.1]
    congr 3
    apply List.filter_congr
    intro x _
    by_cases hx : x = get_tag g a <;> simp [hx]
  · rw [h1] at hsl; simp at hsl

/-- C19 (block-offset insensitivity).  Two addresses that agree above their
low `block_bits` bits give the same `cache_load`: the same returned value and
the same cache afterwards (for every geometry, in particular for
`set_bits + block_bits < 64`). -/
theorem cache_load_block_offset (g : Geometry) (C : List cache_set) (a1 a2 d : Nat)
    (h : a1 >>> g.block_bits = a2 >>> g.block_bits) :
    cache_load g C a1 d = cache_load g C a2 d := by
  have hi : get_set_index g a1 = get_set_index g a2 := by
    unfold get_set_index
    rw [h]
  have ht : get_tag g a1 = get_tag g a2 := by
    unfold get_tag
    rw [Nat.add_comm, Nat.shiftRight_add, Nat.shiftRight_add, h]
  unfold cache_load
  rw [hi, ht]

/-! ## Initialisation -/

theorem init_sets_some (g : Geometry) (malloc_ok : Nat → Nat → Bool)
    (fresh : Nat → Nat → cache_line) (n : Nat) :
    ∀ (i : Nat) (C : List cache_set), init_sets g malloc_ok fresh n i = some C →
      C.length = n ∧ ∀ S ∈ C, S.lru_list = [] ∧
        S.cache_lines.length = g.num_lines * sizeof_cache_line % 2 ^ 64 / sizeof_cache_line ∧
        ∀ l ∈ S.cache_lines, ∃ k j, l = fresh k j := by
  induction n with
  | zero =>
    intro i C h
    simp only [init_sets, Option.some.injEq] at h
    subst h
    simp
  | succ n ih =>
    intro i C h
    simp only [init_sets] at h
    split_ifs at h with hm
    cases hr : init_sets g malloc_ok fresh n (i + 1) with
    | none => rw [hr] at h; simp at h
    | some rest =>
      rw [hr] at h
      simp only [Option.map_some', Option.some.injEq] at h
      subst h
      obtain ⟨hlen, hall⟩ := ih (i + 1) rest hr
      refine ⟨by simp [hlen], ?_⟩
      intro S hS
      rcases List.mem_cons.mp hS with e | hS2
      · subst e
        refine ⟨rfl, by simp, ?_⟩
        intro l hl
        simp only [List.mem_map, List.mem_range] at hl
        obtain ⟨j, _, e⟩ := hl
        exact ⟨i, j, e.symm⟩
      · exact hall S hS2

theorem init_sets_returns (g : Geometry) (malloc_ok : Nat → Nat → Bool)
    (fresh : Nat → Nat → cache_line)
    (hok : ∀ k, malloc_ok (k + 1) (g.num_lines * sizeof_cache_line % 2 ^ 64) = true) (n : Nat) :
    ∀ i, ∃ C, init_sets g malloc_ok fresh n i = some C := by
  induction n with
  | zero => intro i; exact ⟨[], rfl⟩
  | succ n ih =>
    intro i
    obtain ⟨rest, hr⟩ := ih (i + 1)
    simp only [init_sets, hok i, if_true, hr, Option.map_some']
    exact ⟨_, rfl⟩

/-- What `cache_init` returns, when it returns: `2 ^ set_bits` sets, each with
an empty recency list and with a line array of the allocated size whose
content is the content of the fresh memory. -/
theorem cache_init_some (g : Geometry) (malloc_ok : Nat → Nat → Bool)
    (fresh : Nat → Nat → cache_line) (C : List cache_set)
    (h : cache_init g malloc_ok fresh = some C) :
    C.length = 2 ^ g.set_bits ∧ ∀ S ∈ C, S.lru_list = [] ∧
      S.cache_lines.length = g.num_lines * sizeof_cache_line % 2 ^ 64 / sizeof_cache_line ∧
      ∀ l ∈ S.cache_lines, ∃ k j, l = fresh k j := by
  unfold cache_init at h
  split_ifs at h
  exact init_sets_some g malloc_ok fresh _ 0 C h

/-- With fewer than `2 ^ 60` sets and every allocation granted, `cache_init`
returns. -/
theorem cache_init_returns (g : Geometry) (malloc_ok : Nat → Nat → Bool)
    (fresh : Nat → Nat → cache_line) (hs : g.set_bits < 60)
    (hok : ∀ k n, malloc_ok k n = true) : ∃ C, cache_init g malloc_ok fresh = some C := by
  unfold cache_init
  have h1 : ¬ 64 ≤ g.set_bits := by omega
  have h2 : ¬ 2 ^ 64 ≤ sizeof_cache_set * 2 ^ g.set_bits := by
    have : 2 ^ g.set_bits < 2 ^ 60 := Nat.pow_lt_pow_right (by decide) hs
    unfold sizeof_cache_set
    omega
  rw [if_neg h1, if_neg (by simp [hok]), if_neg h2]
  exact init_sets_returns g malloc_ok fresh (fun k => hok _ _) _ 0

/-- When the fresh memory of the line arrays holds `valid = 0` everywhere and
`num_lines < 2 ^ 60`, the cache that `cache_init` returns is an empty cache. -/
theorem cache_init_is_empty (g : Geometry) (malloc_ok : Nat → Nat → Bool)
    (fresh : Nat → Nat → cache_line) (C : List cache_set) (hE : g.num_lines < 2 ^ 60)
    (hz : ∀ k j, (fresh k j).valid = false) (h : cache_init g malloc_ok fresh = some C) :
    is_empty_cache g C := by
  intro S hS
  obtain ⟨hl, hlen, hfr⟩ := (cache_init_some g malloc_ok fresh C h).2 S hS
  refine ⟨?_, ?_, hl⟩
  · rw [hlen]
    unfold sizeof_cache_line
    omega
  · intro l hl2
    obtain ⟨k, j, e⟩ := hfr l hl2
    rw [e]
    exact hz k j

theorem get_set_index_lt (g : Geometry) (a : Nat) : get_set_index g a < 2 ^ g.set_bits := by
  by_cases hs : g.set_bits < 32
  · rw [get_set_index_eq_mod g a hs]
    exact Nat.mod_lt _ (Nat.pow_pos (by decide))
  · have hs2 : 32 ≤ g.set_bits := by omega
    unfold get_set_index
    have h1 : (0xFFFFFFFF <<< g.set_bits) % 2 ^ 32 = 0 := by
      rw [Nat.shiftLeft_eq]
      obtain ⟨k, hk⟩ := Nat.exists_eq_add_of_le hs2
      rw [hk, Nat.pow_add, ← Nat.mul_assoc, Nat.mul_comm _ (2 ^ 32), Nat.mul_assoc]
      exact Nat.mul_mod_right _ _
    simp only [h1, Nat.sub_zero]
    have h2 : a >>> g.block_bits &&& 0xFFFFFFFF ≤ 0xFFFFFFFF := Nat.and_le_right
    have h3 : 2 ^ 32 ≤ 2 ^ g.set_bits := Nat.pow_le_pow_right (by decide) hs2
    omega

theorem cache_load_length (g : Geometry) (C C1 : List cache_set) (a d : Nat) (r : Int)
    (h : cache_load g C a d = some (r, C1)) : C1.length = C.length := by
  obtain ⟨S, S1, _, _, rfl⟩ := cache_load_some g C C1 a d r h
  exact List.length_set _ _ _

/-- C20 (set index in bounds).  For every geometry and address,
`get_set_index a < 2 ^ set_bits`; so in a cache of `2 ^ set_bits` sets, such as
`cache_init` returns and `cache_load` keeps, the lookup `C[set_index]` of
`cache_load` finds a set. -/
theorem get_set_index_in_bounds (g : Geometry) (a : Nat) :
    get_set_index g a < 2 ^ g.set_bits ∧
      (∀ (C : List cache_set), C.length = 2 ^ g.set_bits →
        ∃ S, C[get_set_index g a]? = some S) ∧
      (∀ (malloc_ok : Nat → Nat → Bool) (fresh : Nat → Nat → cache_line) (C : List cache_set),
        cache_init g malloc_ok fresh = some C → C.length = 2 ^ g.set_bits) ∧
      (∀ (C C1 : List cache_set) (b d : Nat) (r : Int),
        C.length = 2 ^ g.set_bits → cache_load g C b d = some (r, C1) →
        C1.length = 2 ^ g.set_bits) := by
  refine ⟨get_set_index_lt g a, ?_, ?_, ?_⟩
  · intro C hC
    have hi : get_set_index g a < C.length := hC ▸ get_set_index_lt g a
    exact ⟨C[get_set_index g a], List.getElem?_eq_getElem hi⟩
  · intro malloc_ok fresh C h
    exact (cache_init_some g malloc_ok fresh C h).1
  · intro C C1 b d r hC h
    rw [cache_load_length g C C1 b d r h, hC]

/-! ## Configuration -/

/-- C12 (initial state), evaluated where it fails: `cache_init` does not write
the line array, so with `s = 0`, `E = 1` and fresh memory that holds a nonzero
`valid` and the tag 5, the returned cache has one set with an empty recency
list and a valid line; it is not an empty cache, and the first `cache_load` on
address 5 returns 1. -/
theorem cache_init_lines_not_written :
    cache_init ⟨1, 0, 0⟩ (fun _ _ => true) (fun _ _ => ⟨true, 5⟩)
        = some [⟨[⟨true, 5⟩], []⟩] ∧
      ¬ is_empty_cache ⟨1, 0, 0⟩ [⟨[⟨true, 5⟩], []⟩] ∧
      cache_load ⟨1, 0, 0⟩ [⟨[⟨true, 5⟩], []⟩] 5 0 = some (1, [⟨[⟨true, 5⟩], [5]⟩]) := by
  decide

/-! ## Worked examples -/

/-- C13 (LRU example).  With `s = 0`, `E = 2`, `b = 0` and one set of two
invalid lines (holding any tags) with an empty recency list, `cache_load` on
0, 1, 2, 0 returns 0, 0, -1, -1, whatever the dummy node holds.  Before the
third access the list is `[0, 1]`: tag 0 is evicted and the resident tags are
2 and 1, list `[1, 2]`; the fourth access evicts tag 1 and the resident tags
are 2 and 0, list `[2, 0]`. -/
theorem lru_example (t0 t1 d1 d2 d3 d4 : Nat) :
    cache_load ⟨2, 0, 0⟩ [⟨[⟨false, t0⟩, ⟨false, t1⟩], []⟩] 0 d1
        = some (0, [⟨[⟨true, 0⟩, ⟨false, t1⟩], [0]⟩]) ∧
      cache_load ⟨2, 0, 0⟩ [⟨[⟨true, 0⟩, ⟨false, t1⟩], [0]⟩] 1 d2
        = some (0, [⟨[⟨true, 0⟩, ⟨true, 1⟩], [0, 1]⟩]) ∧
      cache_load ⟨2, 0, 0⟩ [⟨[⟨true, 0⟩, ⟨true, 1⟩], [0, 1]⟩] 2 d3
        = some (-1, [⟨[⟨true, 2⟩, ⟨true, 1⟩], [1, 2]⟩]) ∧
      cache_load ⟨2, 0, 0⟩ [⟨[⟨true, 2⟩, ⟨true, 1⟩], [1, 2]⟩] 0 d4
        = some (-1, [⟨[⟨true, 2⟩, ⟨true, 0⟩], [2, 0]⟩]) ∧
      load_all ⟨2, 0, 0⟩ [⟨[⟨false, t0⟩, ⟨false, t1⟩], []⟩] [(0, d1), (1, d2), (2, d3), (0, d4)]
        = some ([0, 0, -1, -1], [⟨[⟨true, 2⟩, ⟨true, 0⟩], [2, 0]⟩]) := by
  refine ⟨rfl, rfl, rfl, rfl, rfl⟩

/-- C14 (end-to-end example).  With `s = 2`, `E = 1`, `b = 0` and four sets of
one invalid line each, the addresses 0, 4, 0, 8 all have set index 0, the
records `L 0`, `L 4`, `L 0`, `S 8` give the results 0, -1, -1, -1 and the
counters end at hits 0, misses 4, evictions 3, whatever the dummy node
holds. -/
theorem end_to_end_example (t0 t1 t2 t3 d1 d2 d3 d4 : Nat) :
    (get_set_index ⟨1, 2, 0⟩ 0 = 0 ∧ get_set_index ⟨1, 2, 0⟩ 4 = 0 ∧
      get_set_index ⟨1, 2, 0⟩ 8 = 0) ∧
      load_all ⟨1, 2, 0⟩
          [⟨[⟨false, t0⟩], []⟩, ⟨[⟨false, t1⟩], []⟩, ⟨[⟨false, t2⟩], []⟩, ⟨[⟨false, t3⟩], []⟩]
          [(0, d1), (4, d2), (0, d3), (8, d4)]
        = some ([0, -1, -1, -1],
            [⟨[⟨true, 2⟩], [2]⟩, ⟨[⟨false, t1⟩], []⟩, ⟨[⟨false, t2⟩], []⟩,
              ⟨[⟨false, t3⟩], []⟩]) ∧
      parse_records ⟨1, 2, 0⟩ ⟨0, 0, 0⟩
          [⟨[⟨false, t0⟩], []⟩, ⟨[⟨false, t1⟩], []⟩, ⟨[⟨false, t2⟩], []⟩, ⟨[⟨false, t3⟩], []⟩]
          [(⟨' ', 'L', 0⟩, d1), (⟨' ', 'L', 4⟩, d2), (⟨' ', 'L', 0⟩, d3), (⟨' ', 'S', 8⟩, d4)]
        = some (⟨0, 4, 3⟩,
            [⟨[⟨true, 2⟩], [2]⟩, ⟨[⟨false, t1⟩], []⟩, ⟨[⟨false, t2⟩], []⟩,
              ⟨[⟨false, t3⟩], []⟩]) := by
  refine ⟨⟨by decide, by decide, by decide⟩, rfl, rfl⟩

/-! ## Direct-mapped caches -/

theorem set_load_first_one (g : Geometry) (t0 tag d : Nat) (hE : g.num_lines = 1) :
    set_load g ⟨[⟨false, t0⟩], []⟩ tag d = some (0, ⟨[⟨true, tag⟩], [tag]⟩) := by
  simp [set_load, hE, hit_scan, first_fit, list_append]

theorem set_load_evict_one (g : Geometry) (t tag d : Nat) (hE : g.num_lines = 1)
    (ht : tag ≠ t) :
    set_load g ⟨[⟨true, t⟩], [t]⟩ tag d = some (-1, ⟨[⟨true, tag⟩], [tag]⟩) := by
  have ht2 : ¬ t = tag := fun h => ht h.symm
  simp [set_load, hE, hit_scan, first_fit, list_append, list_delete_head, replace_victim, ht2]

theorem alternate_evicts (g : Geometry) (hE : g.num_lines = 1) (ds : List Nat) :
    ∀ (A B : Nat) (C : List cache_set),
      get_set_index g A = get_set_index g B → get_tag g A ≠ get_tag g B →
      C[get_set_index g A]? = some ⟨[⟨true, get_tag g A⟩], [get_tag g A]⟩ →
      ∃ C1, load_all g C (alternate B A ds) = some (List.replicate ds.length (-1), C1) := by
  induction ds with
  | nil => intro A B C _ _ _; exact ⟨C, rfl⟩
  | cons d ds ih =>
    intro A B C hidx htag hS
    have hS2 : C[get_set_index g B]? = some ⟨[⟨true, get_tag g A⟩], [get_tag g A]⟩ := by
      rw [← hidx]; exact hS
    have hc := cache_load_of_set_load g C _ _ B d (-1) hS2
      (set_load_evict_one g (get_tag g A) (get_tag g B) d hE (Ne.symm htag))
    have hi : get_set_index g B < C.length := (List.getElem?_eq_some.mp hS2).1
    obtain ⟨C1, h1⟩ := ih B A _ hidx.symm (Ne.symm htag) (List.getElem?_set_self hi)
    exact ⟨C1, by simp [alternate, load_all, hc, h1, List.replicate_succ]⟩

/-- C15 (direct-mapped degeneracy), as the code has it.  With `num_lines = 1`,
for two addresses `A` and `B` with the same set index and different tags, and
an empty cache that holds this set, the accesses `A, B, A, B, ...` never hit:
the first returns 0 and every later one returns -1, whatever the dummy node
holds. -/
theorem alternate_never_hits (g : Geometry) (C : List cache_set) (A B d : Nat) (ds : List Nat)
    (hE : g.num_lines = 1) (h0 : is_empty_cache g C)
    (hidx : get_set_index g A = get_set_index g B) (htag : get_tag g A ≠ get_tag g B)
    (hin : get_set_index g A < C.length) :
    ∃ C1, load_all g C (alternate A B (d :: ds))
      = some (0 :: List.replicate ds.length (-1), C1) := by
  have hS : C[get_set_index g A]? = some C[get_set_index g A] := List.getElem?_eq_getElem hin
  obtain ⟨hlen, hinv, hl⟩ := h0 _ (List.getElem_mem hin)
  obtain ⟨t0, hlines⟩ : ∃ t0, (C[get_set_index g A]).cache_lines = [⟨false, t0⟩] := by
    rw [hE] at hlen
    match hc : (C[get_set_index g A]).cache_lines, hlen with
    | [l], _ =>
      have hv := hinv l (by rw [hc]; simp)
      exact ⟨l.tag, by cases l; simp_all⟩
  have hSet : C[get_set_index g A] = ⟨[⟨false, t0⟩], []⟩ := by
    cases hC : C[get_set_index g A] with
    | mk lines lru =>
      rw [hC] at hlines hl
      simp only at hlines hl
      rw [hlines, hl]
  rw [hSet] at hS
  have hc := cache_load_of_set_load g C _ _ A d 0 hS
    (set_load_first_one g t0 (get_tag g A) d hE)
  obtain ⟨C1, h1⟩ := alternate_evicts g hE ds A B _ hidx htag (List.getElem?_set_self hin)
  exact ⟨C1, by simp [alternate, load_all, hc, h1]⟩

/-- C15 (direct-mapped degeneracy), where it fails: with `s = 0`, `E = 1`,
`b = 1` the addresses 0 and 1 are distinct and have the same set index (and
the same tag, as they lie in one block); from the empty cache the access to 0
returns 0 and the access to 1 returns 1, a hit. -/
theorem alternate_same_block_hits :
    (0 : Nat) ≠ 1 ∧ (⟨1, 0, 1⟩ : Geometry).set_bits + (⟨1, 0, 1⟩ : Geometry).block_bits < 64 ∧
      get_set_index ⟨1, 0, 1⟩ 0 = get_set_index ⟨1, 0, 1⟩ 1 ∧
      is_empty_cache ⟨1, 0, 1⟩ (empty_cache ⟨1, 0, 1⟩ 1) ∧
      load_all ⟨1, 0, 1⟩ (empty_cache ⟨1, 0, 1⟩ 1) (alternate 0 1 [0, 0])
        = some ([0, 1], [⟨[⟨true, 0⟩], [0]⟩]) := by
  decide

/-! ## Counters of an `M` record -/

theorem int_wrap_eq (x : Int) (h1 : -2 ^ 31 ≤ x) (h2 : x < 2 ^ 31) : int_wrap x = x := by
  unfold int_wrap
  omega

theorem parse_step_modify (g : Geometry) (cnt : Counters) (C : List cache_set) (a d : Nat) :
    parse_step g cnt C ⟨' ', 'M', a⟩ d =
      match cache_load g C a d with
      | none => none
      | some (res, C1) =>
        if res > 0 then some ({ cnt with hit_count := int_wrap (cnt.hit_count + 2) }, C1)
        else if res < 0 then
          some ({ hit_count := int_wrap (cnt.hit_count + 1),
                  miss_count := int_wrap (cnt.miss_count + 1),
                  eviction_count := int_wrap (cnt.eviction_count + 1) }, C1)
        else some ({ cnt with hit_count := int_wrap (cnt.hit_count + 1),
                              miss_count := int_wrap (cnt.miss_count + 1) }, C1) := by
  simp [parse_step]

/-- C16 (modify counters), as the code has it.  In a cache reachable from an
empty cache with `num_lines ≥ 1`, for an `M` record whose set `S` is in the
cache, and `int` counters that can take the increments (`hit_count + 2`,
`miss_count + 1` and `eviction_count + 1` are at most `2 ^ 31 - 1`): when no
valid line of `S` holds the tag, misses and hits each grow by 1, and evictions
by 0 if some line of `S` is invalid and by 1 if all lines are valid; when a
valid line holds the tag and the step returns, hits grow by 2 and misses and
evictions stay (and the step returns when the tag field of the dummy node
differs from the tag). -/
theorem modify_counters (g : Geometry) (C : List cache_set) (S : cache_set) (cnt : Counters)
    (a d : Nat) (hE : 1 ≤ g.num_lines) (hreach : reachable g C)
    (hS : C[get_set_index g a]? = some S)
    (hh : -2 ^ 31 ≤ cnt.hit_count ∧ cnt.hit_count + 2 < 2 ^ 31)
    (hm : -2 ^ 31 ≤ cnt.miss_count ∧ cnt.miss_count + 1 < 2 ^ 31)
    (he : -2 ^ 31 ≤ cnt.eviction_count ∧ cnt.eviction_count + 1 < 2 ^ 31) :
    ((¬ ∃ l ∈ S.cache_lines, l.valid = true ∧ l.tag = get_tag g a) →
        (∃ l ∈ S.cache_lines, l.valid = false) →
        ∃ C1, parse_step g cnt C ⟨' ', 'M', a⟩ d =
          some (⟨cnt.hit_count + 1, cnt.miss_count + 1, cnt.eviction_count⟩, C1)) ∧
      ((¬ ∃ l ∈ S.cache_lines, l.valid = true ∧ l.tag = get_tag g a) →
        (∀ l ∈ S.cache_lines, l.valid = true) →
        ∃ C1, parse_step g cnt C ⟨' ', 'M', a⟩ d =
          some (⟨cnt.hit_count + 1, cnt.miss_count + 1, cnt.eviction_count + 1⟩, C1)) ∧
      ((∃ l ∈ S.cache_lines, l.valid = true ∧ l.tag = get_tag g a) →
        (∀ cnt1 C1, parse_step g cnt C ⟨' ', 'M', a⟩ d = some (cnt1, C1) →
          cnt1 = ⟨cnt.hit_count + 2, cnt.miss_count, cnt.eviction_count⟩) ∧
        (d ≠ get_tag g a → ∃ C1, parse_step g cnt C ⟨' ', 'M', a⟩ d =
          some (⟨cnt.hit_count + 2, cnt.miss_count, cnt.eviction_count⟩, C1))) := by
  have hwf := wf_of_reachable g C hE hreach
  have hwfS := wf_cache_getElem g C _ S hwf hS
  have hres : (∃ l ∈ S.cache_lines, l.valid = true ∧ l.tag = get_tag g a) ↔
      get_tag g a ∈ S.lru_list := by
    rw [hwfS.2.2.mem_iff, mem_valid_tags]
  have w1 : int_wrap (cnt.hit_count + 1) = cnt.hit_count + 1 :=
    int_wrap_eq _ (by omega) (by omega)
  have w2 : int_wrap (cnt.hit_count + 2) = cnt.hit_count + 2 :=
    int_wrap_eq _ (by omega) (by omega)
  have w3 : int_wrap (cnt.miss_count + 1) = cnt.miss_count + 1 :=
    int_wrap_eq _ (by omega) (by omega)
  have w4 : int_wrap (cnt.eviction_count + 1) = cnt.eviction_count + 1 :=
    int_wrap_eq _ (by omega) (by omega)
  refine ⟨?_, ?_, ?_⟩
  · intro hnot hinv
    rw [hres] at hnot
    obtain ⟨pre, l, post, _, _, _, hsl⟩ := set_load_miss g S (get_tag g a) d hwfS hnot hinv
    have hc := cache_load_of_set_load g C S _ a d 0 hS hsl
    have hp := parse_step_modify g cnt C a d
    rw [hc] at hp
    simp only [gt_iff_lt, lt_self_iff_false, if_false, w1, w3] at hp
    exact ⟨_, hp⟩
  · intro hnot hall
    rw [hres] at hnot
    obtain ⟨v, L, pre, l, post, _, _, _, _, hsl⟩ :=
      set_load_evict g S (get_tag g a) d hwfS hnot hall hE
    have hc := cache_load_of_set_load g C S _ a d (-1) hS hsl
    have hp := parse_step_modify g cnt C a d
    rw [hc] at hp
    simp only [gt_iff_lt, show ¬ (0 : Int) < -1 by decide, show (-1 : Int) < 0 by decide,
      if_false, if_true, w1, w3, w4] at hp
    exact ⟨_, hp⟩
  · intro hr
    have key : ∀ res C1, cache_load g C a d = some (res, C1) → res = 1 := by
      intro res C1 hc
      exact (cache_load_classify g C C1 S a d res hwf hE hS hc).1.mpr hr
    constructor
    · intro cnt1 C1 hstep
      rw [parse_step_modify] at hstep
      cases hc : cache_load g C a d with
      | none => rw [hc] at hstep; simp at hstep
      | some p =>
        obtain ⟨res, C2⟩ := p
        have h1 := key res C2 hc
        subst h1
        rw [hc] at hstep
        simp only [gt_iff_lt, zero_lt_one, if_true, Option.some.injEq, Prod.mk.injEq] at hstep
        rw [← hstep.1, w2]
    · intro hd
      have hi : get_set_index g a < C.length := (List.getElem?_eq_some.mp hS).1
      obtain ⟨res, C1, hc⟩ := cache_load_returns g C a d hwf hE hi hd
      have h1 := key res C1 hc
      subst h1
      exact ⟨C1, by rw [parse_step_modify, hc]; simp [w2]⟩

/-- C16 (modify counters), where it fails: with `s = 0`, `E = 1`, `b = 0` the
cache reached from the empty cache by a load of address 0 is full; the tag of
address 1 is not resident, and the record `M 1` raises the evictions from 0 to
1 (with misses and hits raised by 1 each). -/
theorem modify_fresh_evicts :
    is_empty_cache ⟨1, 0, 0⟩ (empty_cache ⟨1, 0, 0⟩ 1) ∧
      cache_load ⟨1, 0, 0⟩ (empty_cache ⟨1, 0, 0⟩ 1) 0 0 = some (0, [⟨[⟨true, 0⟩], [0]⟩]) ∧
      (¬ ∃ l ∈ [(⟨true, 0⟩ : cache_line)], l.valid = true ∧ l.tag = get_tag ⟨1, 0, 0⟩ 1) ∧
      parse_step ⟨1, 0, 0⟩ ⟨0, 1, 0⟩ [⟨[⟨true, 0⟩], [0]⟩] ⟨' ', 'M', 1⟩ 0
        = some (⟨1, 2, 1⟩, [⟨[⟨true, 1⟩], [1]⟩]) := by
  decide

/-! ## Counters at the end of the `int` range -/

theorem int_wrap_range (x : Int) : -2 ^ 31 ≤ int_wrap x ∧ int_wrap x < 2 ^ 31 := by
  unfold int_wrap
  omega

/-- In the one-line cache that holds tag 0, `n` records `M 0` in a row add
`2 * n` to `hit_count` in `int` arithmetic and change nothing else. -/
theorem modify_hits_repeat (n : Nat) :
    ∀ (cnt : Counters), -2 ^ 31 ≤ cnt.hit_count → cnt.hit_count < 2 ^ 31 →
      parse_records ⟨1, 0, 0⟩ cnt [⟨[⟨true, 0⟩], [0]⟩]
          (List.replicate n (⟨' ', 'M', 0⟩, 0))
        = some (⟨int_wrap (cnt.hit_count + 2 * (n : Int)), cnt.miss_count,
            cnt.eviction_count⟩, [⟨[⟨true, 0⟩], [0]⟩]) := by
  induction n with
  | zero =>
    intro cnt h1 h2
    simp only [List.replicate_zero, parse_records, Nat.cast_zero, mul_zero, add_zero,
      int_wrap_eq _ h1 h2]
  | succ n ih =>
    intro cnt _ _
    have hstep : parse_step ⟨1, 0, 0⟩ cnt [⟨[⟨true, 0⟩], [0]⟩] ⟨' ', 'M', 0⟩ 0 =
        some (⟨int_wrap (cnt.hit_count + 2), cnt.miss_count, cnt.eviction_count⟩,
          [⟨[⟨true, 0⟩], [0]⟩]) := by
      rw [parse_step_modify]
      rfl
    rw [List.replicate_succ, parse_records_cons _ _ _ _ _ _ _ _ hstep,
      ih _ (int_wrap_range _).1 (int_wrap_range _).2]
    have e : int_wrap (int_wrap (cnt.hit_count + 2) + 2 * (n : Int)) =
        int_wrap (cnt.hit_count + 2 * ((n + 1 : Nat) : Int)) := by
      unfold int_wrap
      push_cast
      omega
    simp only [e]

theorem num_replicate_modify (n : Nat) (a d : Nat) :
    num_load_store (List.replicate n (⟨' ', 'M', a⟩, d)) = 0 ∧
      num_modify (List.replicate n (⟨' ', 'M', a⟩, d)) = n := by
  unfold num_load_store num_modify
  rw [List.countP_replicate, List.countP_replicate]
  constructor
  · simp [is_load_store]
  · simp [is_modify]

theorem num_cons_load (rest : List (Record × Nat)) :
    num_load_store ((⟨' ', 'L', 0⟩, 0) :: rest) = num_load_store rest + 1 ∧
      num_modify ((⟨' ', 'L', 0⟩, 0) :: rest) = num_modify rest := by
  unfold num_load_store num_modify
  rw [List.countP_cons, List.countP_cons]
  constructor
  · simp [is_load_store]
  · simp [is_modify]

theorem load_then_modify (rest : List (Record × Nat)) :
    parse_records ⟨1, 0, 0⟩ ⟨0, 0, 0⟩ (empty_cache ⟨1, 0, 0⟩ 1) ((⟨' ', 'L', 0⟩, 0) :: rest) =
      parse_records ⟨1, 0, 0⟩ ⟨0, 1, 0⟩ [⟨[⟨true, 0⟩], [0]⟩] rest :=
  parse_records_cons _ _ _ _ _ _ _ rest (by decide)

/-- C9 (access accounting), where it fails: with `s = 0`, `E = 1`, `b = 0`,
from the empty cache and counters 0, 0, 0, the record `L 0` followed by
`2 ^ 30` records `M 0` is processed to the end; the `int` counter `hit_count`
wraps to `-2 ^ 31`, so `hit_count + miss_count` is `-2147483647`, while the
`L` and `S` records plus twice the `M` records are `2147483649`. -/
theorem access_accounting_overflow :
    parse_records ⟨1, 0, 0⟩ ⟨0, 0, 0⟩ (empty_cache ⟨1, 0, 0⟩ 1)
        ((⟨' ', 'L', 0⟩, 0) :: List.replicate 1073741824 (⟨' ', 'M', 0⟩, 0))
        = some (⟨-2147483648, 1, 0⟩, [⟨[⟨true, 0⟩], [0]⟩]) ∧
      (num_load_store ((⟨' ', 'L', 0⟩, 0) :: List.replicate 1073741824 (⟨' ', 'M', 0⟩, 0))
          : Int) +
        2 * (num_modify ((⟨' ', 'L', 0⟩, 0) :: List.replicate 1073741824 (⟨' ', 'M', 0⟩, 0))
          : Int) = 2147483649 ∧
      (-2147483648 : Int) + 1 ≠ 2147483649 := by
  refine ⟨?_, ?_, by decide⟩
  · have h0 := load_then_modify (List.replicate 1073741824 (⟨' ', 'M', 0⟩, 0))
    have h1 := modify_hits_repeat 1073741824 ⟨0, 1, 0⟩ (by decide) (by decide)
    have h2 : int_wrap ((⟨0, 1, 0⟩ : Counters).hit_count + 2 * ((1073741824 : Nat) : Int))
        = -2147483648 := by decide
    rw [h2] at h1
    exact h0.trans h1
  · have h := num_replicate_modify 1073741824 0 0
    have h2 := num_cons_load (List.replicate 1073741824 (⟨' ', 'M', 0⟩, 0))
    rw [h2.1, h2.2, h.1, h.2]
    decide

/-- C10 (evictions bounded by misses), where it fails: with `s = 0`, `E = 1`,
`b = 0`, from the empty cache and counters 0, 0, 0, the record `L 0` followed
by `2 ^ 30 - 1` records `M 0` leaves `hit_count` at `2147483646`; one more
record `M 0` is processed and the `int` counter wraps to `-2147483648`: the
counter has decreased. -/
theorem hit_count_decreases :
    parse_records ⟨1, 0, 0⟩ ⟨0, 0, 0⟩ (empty_cache ⟨1, 0, 0⟩ 1)
        ((⟨' ', 'L', 0⟩, 0) :: List.replicate 1073741823 (⟨' ', 'M', 0⟩, 0))
        = some (⟨2147483646, 1, 0⟩, [⟨[⟨true, 0⟩], [0]⟩]) ∧
      parse_step ⟨1, 0, 0⟩ ⟨2147483646, 1, 0⟩ [⟨[⟨true, 0⟩], [0]⟩] ⟨' ', 'M', 0⟩ 0
        = some (⟨-2147483648, 1, 0⟩, [⟨[⟨true, 0⟩], [0]⟩]) ∧
      (-2147483648 : Int) < 2147483646 := by
  refine ⟨?_, by decide, by decide⟩
  have h0 := load_then_modify (List.replicate 1073741823 (⟨' ', 'M', 0⟩, 0))
  have h1 := modify_hits_repeat 1073741823 ⟨0, 1, 0⟩ (by decide) (by decide)
  have h2 : int_wrap ((⟨0, 1, 0⟩ : Counters).hit_count + 2 * ((1073741823 : Nat) : Int))
      = 2147483646 := by decide
  rw [h2] at h1
  exact h0.trans h1

/-! ## The set invariant and the dummy node -/

/-- C3 (set invariant), evaluated where it fails: with `num_lines = 3` the
cache reached from the empty cache by the accesses 1, 0, 2 satisfies the
invariant, and `cache_load` on address 0 is a call on it.  With 0 in the tag
field of the dummy node, `list_delete_by_tag` unlinks node 0 and then the dummy
node: the call yields no cache at all.  When the dummy node is unlinked the
list holds 1, 2 while line 1 still holds tag 0 as valid, which is not a
well-formed set. -/
theorem invariant_lost_in_hit :
    is_empty_cache ⟨3, 0, 0⟩ (empty_cache ⟨3, 0, 0⟩ 1) ∧
      1 ≤ (⟨3, 0, 0⟩ : Geometry).num_lines ∧
      load_all ⟨3, 0, 0⟩ (empty_cache ⟨3, 0, 0⟩ 1) [(1, 0), (0, 0), (2, 0)] =
        some ([0, 0, 0], [⟨[⟨true, 1⟩, ⟨true, 0⟩, ⟨true, 2⟩], [1, 0, 2]⟩]) ∧
      wf_cache ⟨3, 0, 0⟩ [⟨[⟨true, 1⟩, ⟨true, 0⟩, ⟨true, 2⟩], [1, 0, 2]⟩] ∧
      list_delete_by_tag [1, 0, 2] (get_tag ⟨3, 0, 0⟩ 0) 0 = none ∧
      cache_load ⟨3, 0, 0⟩ [⟨[⟨true, 1⟩, ⟨true, 0⟩, ⟨true, 2⟩], [1, 0, 2]⟩] 0 0 = none ∧
      ¬ wf_cache ⟨3, 0, 0⟩ [⟨[⟨true, 1⟩, ⟨true, 0⟩, ⟨true, 2⟩], [1, 2]⟩] := by
  decide

/-! ## Instances of the theorems above -/

theorem wf_cache_invariant_witness :
    1 ≤ (⟨2, 1, 0⟩ : Geometry).num_lines ∧
      is_empty_cache ⟨2, 1, 0⟩ (empty_cache ⟨2, 1, 0⟩ 2) ∧
      wf_cache ⟨2, 1, 0⟩ (empty_cache ⟨2, 1, 0⟩ 2) ∧
      cache_load ⟨2, 1, 0⟩ (empty_cache ⟨2, 1, 0⟩ 2) 5 0 =
        some (0, [⟨[⟨false, 0⟩, ⟨false, 0⟩], []⟩, ⟨[⟨true, 2⟩, ⟨false, 0⟩], [2]⟩]) ∧
      wf_cache ⟨2, 1, 0⟩ [⟨[⟨false, 0⟩, ⟨false, 0⟩], []⟩, ⟨[⟨true, 2⟩, ⟨false, 0⟩], [2]⟩] :=
  ⟨by decide, by decide,
    (wf_cache_invariant ⟨2, 1, 0⟩ (empty_cache ⟨2, 1, 0⟩ 2) (by decide)).1 (by decide),
    by decide,
    (wf_cache_invariant ⟨2, 1, 0⟩ (empty_cache ⟨2, 1, 0⟩ 2) (by decide)).2 (by decide)
      5 0 0 _ (by decide)⟩

theorem cache_load_eviction_effect_witness :
    1 ≤ (⟨2, 0, 0⟩ : Geometry).num_lines ∧
      wf_cache ⟨2, 0, 0⟩ [⟨[⟨true, 1⟩, ⟨true, 0⟩], [0, 1]⟩] ∧
      cache_load ⟨2, 0, 0⟩ [⟨[⟨true, 1⟩, ⟨true, 0⟩], [0, 1]⟩] 2 0 =
        some (-1, [⟨[⟨true, 1⟩, ⟨true, 2⟩], [1, 2]⟩]) ∧
      ∃ S v L pre l post,
        [(⟨[⟨true, 1⟩, ⟨true, 0⟩], [0, 1]⟩ : cache_set)][get_set_index ⟨2, 0, 0⟩ 2]? = some S ∧
        S.lru_list = v :: L ∧ S.cache_lines = pre ++ l :: post ∧ l.valid = true ∧ l.tag = v ∧
        (∀ x ∈ pre, x.tag ≠ v) ∧ (∀ x ∈ post, x.tag ≠ v) ∧
        [(⟨[⟨true, 1⟩, ⟨true, 2⟩], [1, 2]⟩ : cache_set)] =
          [(⟨[⟨true, 1⟩, ⟨true, 0⟩], [0, 1]⟩ : cache_set)].set (get_set_index ⟨2, 0, 0⟩ 2)
            { cache_lines := pre ++ { valid := true, tag := get_tag ⟨2, 0, 0⟩ 2 } :: post,
              lru_list := L ++ [get_tag ⟨2, 0, 0⟩ 2] } :=
  ⟨by decide, by decide, by decide,
    cache_load_eviction_effect ⟨2, 0, 0⟩ [⟨[⟨true, 1⟩, ⟨true, 0⟩], [0, 1]⟩]
      [⟨[⟨true, 1⟩, ⟨true, 2⟩], [1, 2]⟩] 2 0 (by decide) (by decide) (by decide)⟩

theorem cache_load_repeat_hits_witness :
    1 ≤ (⟨2, 0, 0⟩ : Geometry).num_lines ∧
      wf_cache ⟨2, 0, 0⟩ [⟨[⟨true, 1⟩, ⟨true, 0⟩], [0, 1]⟩] ∧
      cache_load ⟨2, 0, 0⟩ [⟨[⟨true, 1⟩, ⟨true, 0⟩], [0, 1]⟩] 2 0 =
        some (-1, [⟨[⟨true, 1⟩, ⟨true, 2⟩], [1, 2]⟩]) ∧
      ∃ C2, cache_load ⟨2, 0, 0⟩ [⟨[⟨true, 1⟩, ⟨true, 2⟩], [1, 2]⟩] 2 2 = some (1, C2) :=
  ⟨by decide, by decide, by decide,
    cache_load_repeat_hits ⟨2, 0, 0⟩ [⟨[⟨true, 1⟩, ⟨true, 0⟩], [0, 1]⟩]
      [⟨[⟨true, 1⟩, ⟨true, 2⟩], [1, 2]⟩] 2 0 2 (-1) (by decide) (by decide) (by decide)⟩

theorem modify_eq_load_then_store_witness :
    1 ≤ (⟨1, 2, 0⟩ : Geometry).num_lines ∧
      reachable ⟨1, 2, 0⟩ (empty_cache ⟨1, 2, 0⟩ 4) ∧
      parse_step ⟨1, 2, 0⟩ ⟨0, 0, 0⟩ (empty_cache ⟨1, 2, 0⟩ 4) ⟨' ', 'M', 9⟩ 0 =
        (parse_step ⟨1, 2, 0⟩ ⟨0, 0, 0⟩ (empty_cache ⟨1, 2, 0⟩ 4) ⟨' ', 'L', 9⟩ 0).bind
          (fun p => parse_step ⟨1, 2, 0⟩ p.1 p.2 ⟨' ', 'S', 9⟩ 0) :=
  ⟨by decide, reachable.init _ (by decide),
    modify_eq_load_then_store ⟨1, 2, 0⟩ _ ⟨0, 0, 0⟩ 9 0 0 (by decide)
      (reachable.init _ (by decide))⟩

theorem access_accounting_witness :
    parse_records ⟨1, 2, 0⟩ ⟨0, 0, 0⟩ (empty_cache ⟨1, 2, 0⟩ 4)
        [(⟨' ', 'L', 0⟩, 0), (⟨' ', 'M', 4⟩, 0), (⟨' ', 'I', 0⟩, 0), (⟨' ', 'S', 4⟩, 0)] =
        some (⟨2, 2, 1⟩, [⟨[⟨true, 1⟩], [1]⟩, ⟨[⟨false, 0⟩], []⟩, ⟨[⟨false, 0⟩], []⟩,
          ⟨[⟨false, 0⟩], []⟩]) ∧
      ((num_load_store [((⟨' ', 'L', 0⟩ : Record), 0), (⟨' ', 'M', 4⟩, 0), (⟨' ', 'I', 0⟩, 0),
            (⟨' ', 'S', 4⟩, 0)] : Int) +
          2 * (num_modify [((⟨' ', 'L', 0⟩ : Record), 0), (⟨' ', 'M', 4⟩, 0), (⟨' ', 'I', 0⟩, 0),
            (⟨' ', 'S', 4⟩, 0)] : Int) < 2 ^ 31) ∧
      ((2 : Int) + 2 =
          (num_load_store [((⟨' ', 'L', 0⟩ : Record), 0), (⟨' ', 'M', 4⟩, 0), (⟨' ', 'I', 0⟩, 0),
            (⟨' ', 'S', 4⟩, 0)] : Int) +
          2 * (num_modify [((⟨' ', 'L', 0⟩ : Record), 0), (⟨' ', 'M', 4⟩, 0), (⟨' ', 'I', 0⟩, 0),
            (⟨' ', 'S', 4⟩, 0)] : Int)) ∧
      parse_step ⟨1, 2, 0⟩ ⟨2, 2, 1⟩ [] ⟨' ', 'I', 0⟩ 0 = some (⟨2, 2, 1⟩, []) :=
  ⟨by decide, by decide,
    (access_accounting ⟨1, 2, 0⟩ (empty_cache ⟨1, 2, 0⟩ 4)
      [⟨[⟨true, 1⟩], [1]⟩, ⟨[⟨false, 0⟩], []⟩, ⟨[⟨false, 0⟩], []⟩, ⟨[⟨false, 0⟩], []⟩]
      [(⟨' ', 'L', 0⟩, 0), (⟨' ', 'M', 4⟩, 0), (⟨' ', 'I', 0⟩, 0), (⟨' ', 'S', 4⟩, 0)] ⟨2, 2, 1⟩
      (by decide) (by decide)).1,
    (access_accounting ⟨1, 2, 0⟩ (empty_cache ⟨1, 2, 0⟩ 4)
      [⟨[⟨true, 1⟩], [1]⟩, ⟨[⟨false, 0⟩], []⟩, ⟨[⟨false, 0⟩], []⟩, ⟨[⟨false, 0⟩], []⟩]
      [(⟨' ', 'L', 0⟩, 0), (⟨' ', 'M', 4⟩, 0), (⟨' ', 'I', 0⟩, 0), (⟨' ', 'S', 4⟩, 0)] ⟨2, 2, 1⟩
      (by decide) (by decide)).2
      ⟨2, 2, 1⟩ [] ⟨' ', 'I', 0⟩ 0 (by decide) (by decide)⟩

theorem evictions_le_misses_witness :
    parse_records ⟨1, 2, 0⟩ ⟨0, 0, 0⟩ (empty_cache ⟨1, 2, 0⟩ 4)
        [(⟨' ', 'L', 0⟩, 0), (⟨' ', 'M', 4⟩, 0)] =
        some (⟨1, 2, 1⟩, [⟨[⟨true, 1⟩], [1]⟩, ⟨[⟨false, 0⟩], []⟩, ⟨[⟨false, 0⟩], []⟩,
          ⟨[⟨false, 0⟩], []⟩]) ∧
      parse_step ⟨1, 2, 0⟩ ⟨1, 2, 1⟩ [⟨[⟨true, 1⟩], [1]⟩, ⟨[⟨false, 0⟩], []⟩,
          ⟨[⟨false, 0⟩], []⟩, ⟨[⟨false, 0⟩], []⟩] ⟨' ', 'S', 8⟩ 0 =
        some (⟨1, 3, 2⟩, [⟨[⟨true, 2⟩], [2]⟩, ⟨[⟨false, 0⟩], []⟩, ⟨[⟨false, 0⟩], []⟩,
          ⟨[⟨false, 0⟩], []⟩]) ∧
      ((num_load_store [((⟨' ', 'L', 0⟩ : Record), 0), (⟨' ', 'M', 4⟩, 0)] : Int) +
          2 * (num_modify [((⟨' ', 'L', 0⟩ : Record), 0), (⟨' ', 'M', 4⟩, 0)] : Int) +
          accesses_of ⟨' ', 'S', 8⟩ < 2 ^ 31) ∧
      ((2 : Int) ≤ 3 ∧ (1 : Int) ≤ 1 ∧ (2 : Int) ≤ 3 ∧ (1 : Int) ≤ 2) :=
  ⟨by decide, by decide, by decide,
    evictions_le_misses ⟨1, 2, 0⟩ (empty_cache ⟨1, 2, 0⟩ 4)
      [⟨[⟨true, 1⟩], [1]⟩, ⟨[⟨false, 0⟩], []⟩, ⟨[⟨false, 0⟩], []⟩, ⟨[⟨false, 0⟩], []⟩]
      [⟨[⟨true, 2⟩], [2]⟩, ⟨[⟨false, 0⟩], []⟩, ⟨[⟨false, 0⟩], []⟩, ⟨[⟨false, 0⟩], []⟩]
      [(⟨' ', 'L', 0⟩, 0), (⟨' ', 'M', 4⟩, 0)] ⟨' ', 'S', 8⟩ 0 ⟨1, 2, 1⟩ ⟨1, 3, 2⟩
      (by decide) (by decide) (by decide)⟩

theorem alternate_never_hits_witness :
    (⟨1, 2, 0⟩ : Geometry).num_lines = 1 ∧ is_empty_cache ⟨1, 2, 0⟩ (empty_cache ⟨1, 2, 0⟩ 4) ∧
      get_set_index ⟨1, 2, 0⟩ 0 = get_set_index ⟨1, 2, 0⟩ 4 ∧
      get_tag ⟨1, 2, 0⟩ 0 ≠ get_tag ⟨1, 2, 0⟩ 4 ∧
      get_set_index ⟨1, 2, 0⟩ 0 < (empty_cache ⟨1, 2, 0⟩ 4).length ∧
      ∃ C1, load_all ⟨1, 2, 0⟩ (empty_cache ⟨1, 2, 0⟩ 4) (alternate 0 4 (0 :: [0, 0]))
        = some (0 :: List.replicate [0, 0].length (-1), C1) :=
  ⟨rfl, by decide, by decide, by decide, by decide,
    alternate_never_hits ⟨1, 2, 0⟩ (empty_cache ⟨1, 2, 0⟩ 4) 0 4 0 [0, 0] rfl (by decide)
      (by decide) (by decide) (by decide)⟩

theorem modify_counters_witness :
    (∃ C1, parse_step ⟨1, 0, 0⟩ ⟨3, 4, 1⟩ (empty_cache ⟨1, 0, 0⟩ 1) ⟨' ', 'M', 7⟩ 0 =
        some (⟨3 + 1, 4 + 1, 1⟩, C1)) ∧
      (∃ C1, parse_step ⟨1, 0, 0⟩ ⟨3, 4, 1⟩ [⟨[⟨true, 0⟩], [0]⟩] ⟨' ', 'M', 7⟩ 0 =
        some (⟨3 + 1, 4 + 1, 1 + 1⟩, C1)) ∧
      (∃ C1, parse_step ⟨1, 0, 0⟩ ⟨3, 4, 1⟩ [⟨[⟨true, 0⟩], [0]⟩] ⟨' ', 'M', 0⟩ 5 =
        some (⟨3 + 2, 4, 1⟩, C1)) :=
  ⟨(modify_counters ⟨1, 0, 0⟩ (empty_cache ⟨1, 0, 0⟩ 1) ⟨[⟨false, 0⟩], []⟩ ⟨3, 4, 1⟩ 7 0
      (by decide) (reachable.init _ (by decide)) (by decide)
      (by decide) (by decide) (by decide)).1 (by decide) (by decide),
    (modify_counters ⟨1, 0, 0⟩ [⟨[⟨true, 0⟩], [0]⟩] ⟨[⟨true, 0⟩], [0]⟩ ⟨3, 4, 1⟩ 7 0
      (by decide)
      (reachable.step (empty_cache ⟨1, 0, 0⟩ 1) [⟨[⟨true, 0⟩], [0]⟩] 0 0 0
        (reachable.init _ (by decide)) (by decide))
      (by decide) (by decide) (by decide) (by decide)).2.1 (by decide) (by decide),
    ((modify_counters ⟨1, 0, 0⟩ [⟨[⟨true, 0⟩], [0]⟩] ⟨[⟨true, 0⟩], [0]⟩ ⟨3, 4, 1⟩ 0 5
      (by decide)
      (reachable.step (empty_cache ⟨1, 0, 0⟩ 1) [⟨[⟨true, 0⟩], [0]⟩] 0 0 0
        (reachable.init _ (by decide)) (by decide))
      (by decide) (by decide) (by decide) (by decide)).2.2 (by decide)).2 (by decide)⟩

theorem cache_load_other_sets_witness :
    (2 : Nat) ≠ get_set_index ⟨1, 2, 0⟩ 5 ∧
      cache_load ⟨1, 2, 0⟩ (empty_cache ⟨1, 2, 0⟩ 4) 5 0 =
        some (0, [⟨[⟨false, 0⟩], []⟩, ⟨[⟨true, 1⟩], [1]⟩, ⟨[⟨false, 0⟩], []⟩,
          ⟨[⟨false, 0⟩], []⟩]) ∧
      [(⟨[⟨false, 0⟩], []⟩ : cache_set), ⟨[⟨true, 1⟩], [1]⟩, ⟨[⟨false, 0⟩], []⟩,
          ⟨[⟨false, 0⟩], []⟩][2]? = (empty_cache ⟨1, 2, 0⟩ 4)[2]? :=
  ⟨by decide, by decide,
    cache_load_other_sets ⟨1, 2, 0⟩ (empty_cache ⟨1, 2, 0⟩ 4)
      [⟨[⟨false, 0⟩], []⟩, ⟨[⟨true, 1⟩], [1]⟩, ⟨[⟨false, 0⟩], []⟩, ⟨[⟨false, 0⟩], []⟩]
      5 0 2 0 (by decide) (by decide)⟩

theorem cache_load_hit_effect_witness :
    1 ≤ (⟨3, 0, 0⟩ : Geometry).num_lines ∧
      wf_cache ⟨3, 0, 0⟩ [⟨[⟨true, 1⟩, ⟨true, 0⟩, ⟨true, 2⟩], [1, 0, 2]⟩] ∧
      cache_load ⟨3, 0, 0⟩ [⟨[⟨true, 1⟩, ⟨true, 0⟩, ⟨true, 2⟩], [1, 0, 2]⟩] 0 9 =
        some (1, [⟨[⟨true, 1⟩, ⟨true, 0⟩, ⟨true, 2⟩], [1, 2, 0]⟩]) ∧
      ∃ S, [(⟨[⟨true, 1⟩, ⟨true, 0⟩, ⟨true, 2⟩], [1, 0, 2]⟩ : cache_set)][
          get_set_index ⟨3, 0, 0⟩ 0]? = some S ∧
        get_tag ⟨3, 0, 0⟩ 0 ∈ S.lru_list ∧
        [(⟨[⟨true, 1⟩, ⟨true, 0⟩, ⟨true, 2⟩], [1, 2, 0]⟩ : cache_set)] =
          [(⟨[⟨true, 1⟩, ⟨true, 0⟩, ⟨true, 2⟩], [1, 0, 2]⟩ : cache_set)].set
            (get_set_index ⟨3, 0, 0⟩ 0)
            { cache_lines := S.cache_lines,
              lru_list := S.lru_list.filter (fun t => t ≠ get_tag ⟨3, 0, 0⟩ 0) ++
                [get_tag ⟨3, 0, 0⟩ 0] } :=
  ⟨by decide, by decide, by decide,
    cache_load_hit_effect ⟨3, 0, 0⟩ [⟨[⟨true, 1⟩, ⟨true, 0⟩, ⟨true, 2⟩], [1, 0, 2]⟩]
      [⟨[⟨true, 1⟩, ⟨true, 0⟩, ⟨true, 2⟩], [1, 2, 0]⟩] 0 9 (by decide) (by decide)
      (by decide)⟩

theorem cache_load_block_offset_witness :
    (4 >>> (⟨1, 1, 2⟩ : Geometry).block_bits = 7 >>> (⟨1, 1, 2⟩ : Geometry).block_bits) ∧
      cache_load ⟨1, 1, 2⟩ (empty_cache ⟨1, 1, 2⟩ 2) 4 0 =
        cache_load ⟨1, 1, 2⟩ (empty_cache ⟨1, 1, 2⟩ 2) 7 0 :=
  ⟨by decide,
    cache_load_block_offset ⟨1, 1, 2⟩ (empty_cache ⟨1, 1, 2⟩ 2) 4 7 0 (by decide)⟩

theorem get_set_index_in_bounds_witness :
    get_set_index ⟨1, 2, 0⟩ 13 < 2 ^ 2 ∧
      (empty_cache ⟨1, 2, 0⟩ 4).length = 2 ^ (⟨1, 2, 0⟩ : Geometry).set_bits ∧
      (∃ S, (empty_cache ⟨1, 2, 0⟩ 4)[get_set_index ⟨1, 2, 0⟩ 13]? = some S) ∧
      cache_init ⟨1, 2, 0⟩ (fun _ _ => true) (fun _ _ => ⟨false, 0⟩) =
        some (empty_cache ⟨1, 2, 0⟩ 4) ∧
      cache_load ⟨1, 2, 0⟩ (empty_cache ⟨1, 2, 0⟩ 4) 5 0 =
        some (0, [⟨[⟨false, 0⟩], []⟩, ⟨[⟨true, 1⟩], [1]⟩, ⟨[⟨false, 0⟩], []⟩,
          ⟨[⟨false, 0⟩], []⟩]) ∧
      [(⟨[⟨false, 0⟩], []⟩ : cache_set), ⟨[⟨true, 1⟩], [1]⟩, ⟨[⟨false, 0⟩], []⟩,
          ⟨[⟨false, 0⟩], []⟩].length = 2 ^ (⟨1, 2, 0⟩ : Geometry).set_bits :=
  ⟨(get_set_index_in_bounds ⟨1, 2, 0⟩ 13).1, by decide,
    (get_set_index_in_bounds ⟨1, 2, 0⟩ 13).2.1 (empty_cache ⟨1, 2, 0⟩ 4) (by decide),
    by decide, by decide,
    (get_set_index_in_bounds ⟨1, 2, 0⟩ 13).2.2.2 (empty_cache ⟨1, 2, 0⟩ 4)
      [⟨[⟨false, 0⟩], []⟩, ⟨[⟨true, 1⟩], [1]⟩, ⟨[⟨false, 0⟩], []⟩, ⟨[⟨false, 0⟩], []⟩]
      5 0 0 (by decide) (by decide)⟩

end Csim

